import Mathlib

/-!
# Multistart driver (`mutlistart_mds_omp_tasks.c`): embedding and properties

The C driver launches `ntrials` local searches (`mds`, an external routine) from
pseudo-random starting points and keeps the best result.  This file embeds the
driver's pieces as Lean functions and states the properties of the specification
over them.

Modelling conventions.

* A C `double` that is only copied and compared is a `Double`: NaN, the two
  infinities, or a finite value embedded in `ℚ` (every finite binary64 number is
  a rational; the two signed zeros compare equal and are both `fin 0`).
* A C `double` that is computed with is a rational, and every arithmetic
  operation of the source is followed by a rounding function `rnd : ℚ → ℚ`.
  Exact arithmetic is `rnd = id`; any IEEE-754 rounding mode satisfies
  `IsRounding`.
* A C array is a function `Nat → _` (no bounds are checked by the source).
* `int` variables are `Int`; the `unsigned long` counter is a `Nat` reduced
  modulo `2 ^ 64` at each increment.
* `for (i = 0; i < n; i++) body` is `forLoop n body`.
* `mds` is a parameter: a function from its input arguments to a run that returns or calls
  the objective `f`.
* A run of concurrent tasks is an interleaving of their accesses to the shared variables;
  a schedule lists which task makes the next access (`genStep`, `incStep`).  The critical
  section `keepBest` takes as an argument what the other tasks write to the shared loop
  index `i` while it runs.  `genStart` and `task` are lines 92-97 and the task body run
  alone, with no other task active.
-/

namespace Multistart

/-! ## Values and loops -/

/-- Value of a C `double` as far as copying and comparing go. -/
inductive Double where
  | nan
  | negInf
  | fin (q : ℚ)
  | posInf
deriving DecidableEq

/-- C's `a < b` on doubles (IEEE-754: false as soon as one side is NaN). -/
def Double.lt : Double → Double → Bool
  | .negInf, .fin _ => true
  | .negInf, .posInf => true
  | .fin a, .fin b => decide (a < b)
  | .fin _, .posInf => true
  | _, _ => false

/-- C's `a <= b` on doubles. -/
def Double.le : Double → Double → Bool
  | .nan, _ => false
  | _, .nan => false
  | .negInf, _ => true
  | _, .posInf => true
  | .fin a, .fin b => decide (a ≤ b)
  | _, _ => false

/-- C's `a >= b` on doubles. -/
def Double.ge (a b : Double) : Bool := Double.le b a

/-- The loop `for (i = 0; i < n; i++) s = body i s`, iterations in increasing `i`. -/
def forLoop {σ : Type} : Nat → (Nat → σ → σ) → σ → σ
  | 0, _, s => s
  | k + 1, body, s => body k (forLoop k body s)

/-! ## The best-result reducer (`main`, lines 63-68 and 104-114) -/

/-- The constant `#define MAXVARS (250)`. -/
def MAXVARS : Nat := 250

/-- The variables of `main` that hold the best point found by multistart. -/
structure GlobalBestState where
  best_pt : Nat → Double
  best_fx : Double
  best_trial : Int
  best_nt : Int
  best_nf : Int

/-- The task-private variables a task brings to the critical section. -/
structure TrialResult where
  trial : Int
  private_endpt : Nat → Double
  private_fx : Double
  private_nt : Int
  private_nf : Int

/-- Initial values of lines 64-68; `best_pt` is declared without initialiser, so its
contents `pt0` are arbitrary. -/
def initBest (pt0 : Nat → Double) : GlobalBestState :=
  { best_pt := pt0
    best_fx := .fin 10000000000
    best_trial := -1
    best_nt := -1
    best_nf := -1 }

/-- What the other tasks do to the shared loop index `i` (declared at line 71, shared by all
tasks) during one iteration of a loop of the task at hand: the value they last wrote before
its test `i < nvars`, before its use of `i` as an index, and before its `i++`; `none` where
they wrote nothing.  Any value is allowed, which covers whatever the other tasks can write. -/
structure IndexWrites where
  atTest : Option Int
  atBody : Option Int
  atIncr : Option Int

/-- The loop of lines 111-112, `for (i = 0; i < nvars; i++) best_pt[i] = private_endpt[i];`,
run on the shared index, from the test with `i` as given.  Each entry of the list says what the
other tasks wrote to `i` during one iteration; once the list is used up they write no more and
the loop runs on alone.  The assignment reads `i` once; `i` is never negative (it is only set
to `0` or incremented). -/
def copyLoop (nvars : Int) (src : Nat → Double) :
    List IndexWrites → Int → (Nat → Double) → (Nat → Double)
  | [], i, pt =>
    forLoop (nvars - i).toNat
      (fun k a => Function.update a (i.toNat + k) (src (i.toNat + k))) pt
  | w :: ws, i, pt =>
    if w.atTest.getD i < nvars then
      copyLoop nvars src ws (w.atIncr.getD (w.atBody.getD (w.atTest.getD i)) + 1)
        (Function.update pt (w.atBody.getD (w.atTest.getD i)).toNat
          (src (w.atBody.getD (w.atTest.getD i)).toNat))
    else pt

/-- Body of the first `#pragma omp critical` (lines 106-113).  The critical section keeps other
tasks out of this body, but not out of lines 95-97, which write the shared `i`: `ws` is what
they write to `i` while the copy loop runs (`[]` when nothing interferes). -/
def keepBest (nvars : Int) (ws : List IndexWrites) (s : GlobalBestState) (c : TrialResult) :
    GlobalBestState :=
  if Double.lt c.private_fx s.best_fx then
    { best_trial := c.trial
      best_nt := c.private_nt
      best_nf := c.private_nf
      best_fx := c.private_fx
      best_pt := copyLoop nvars c.private_endpt ws 0 s.best_pt }
  else s

/-- A result arriving at the critical section, with what the other tasks write to `i` while
its copy loop runs. -/
structure Arrival where
  result : TrialResult
  writes : List IndexWrites

/-- The reducer fed a sequence of results in arrival order. -/
def reduce (nvars : Int) (s : GlobalBestState) (rs : List Arrival) : GlobalBestState :=
  rs.foldl (fun st a => keepBest nvars a.writes st a.result) s

/-! ## Rounding of double arithmetic -/

/-- Rationals that binary64 certainly represents: an integer of magnitude at most `2 ^ 53`
scaled down by a power of two no smaller than the least subnormal. -/
def Representable (q : ℚ) : Prop :=
  ∃ (m : Int) (e : Nat), |m| ≤ 2 ^ 53 ∧ e ≤ 1074 ∧ q = (m : ℚ) / 2 ^ e

/-- What is assumed of the rounding applied after each double operation: it is monotone and
leaves representable values alone.  Every IEEE-754 rounding mode is such, and so is `id`. -/
def IsRounding (rnd : ℚ → ℚ) : Prop :=
  Monotone rnd ∧ ∀ q, Representable q → rnd q = q

/-! ## The objective function and the evaluation counter (lines 17-32) -/

/-- The function `f`: the Rosenbrock sum over `i < n - 1`, each operation rounded, and the
side effect `funevals++` on the `unsigned long` counter.  `pow(y, 2)` is the rounded square.
Returns the value and the new counter. -/
def f (rnd : ℚ → ℚ) (x : Nat → ℚ) (n : Int) (funevals : Nat) : ℚ × Nat :=
  (forLoop (n - 1).toNat
      (fun i fv =>
        rnd (rnd (fv + rnd (100 * rnd ((rnd (x (i + 1) - rnd (x i * x i))) ^ 2)))
          + rnd ((rnd (x i - 1)) ^ 2)))
      0,
   (funevals + 1) % 2 ^ 64)

/-! ## The C library generator `srand48` / `drand48` (POSIX) -/

/-- The process-wide state of the `drand48` family: the 48-bit value `x`, the multiplier `a`
and the addend `c`. -/
structure Drand48 where
  x : Nat
  a : Nat
  c : Nat
deriving DecidableEq

/-- The call `srand48(seedval)`: the high 32 bits of `x` are the low 32 bits of the seed, the
low 16 bits are `0x330E`; multiplier and addend are reset.  The previous state is overwritten. -/
def srand48 (seedval : Int) (_ : Drand48) : Drand48 :=
  { x := (seedval % 2 ^ 32).toNat * 2 ^ 16 + 0x330E
    a := 0x5DEECE66D
    c := 0xB }

/-- The call `drand48()`: one step of the linear congruence modulo `2 ^ 48`, the new value
scaled to `[0, 1)`.  Returns the draw and the new state. -/
def drand48 (g : Drand48) : ℚ × Drand48 :=
  (((g.a * g.x + g.c) % 2 ^ 48 : Nat) / 2 ^ 48, { g with x := (g.a * g.x + g.c) % 2 ^ 48 })

/-! ## Bounds and starting points (lines 75-76 and 92-97) -/

/-- Line 75: `for (i = 0; i < MAXVARS; i++) lower[i] = -2.0;` over the array's prior contents. -/
def lower (mem : Nat → ℚ) : Nat → ℚ :=
  forLoop MAXVARS (fun i a => Function.update a i (-2)) mem

/-- Line 76: `for (i = 0; i < MAXVARS; i++) upper[i] = +2.0;` over the array's prior contents. -/
def upper (mem : Nat → ℚ) : Nat → ℚ :=
  forLoop MAXVARS (fun i a => Function.update a i 2) mem

/-- The assignment of line 96 for one draw `u`. -/
def startCoord (rnd : ℚ → ℚ) (lo hi : Nat → ℚ) (i : Nat) (u : ℚ) : ℚ :=
  rnd (lo i + rnd (rnd (hi i - lo i) * u))

/-- Lines 92-97 run by one task alone, that is while no other task touches the generator or
the loop index `i`, both of which the tasks share: reseed with the trial index, then fill
`private_startpt[0 .. nvars-1]` with `nvars` draws.  `g` is the generator state found on entry,
`pt0` the prior contents of `private_startpt`.  Returns the array and the generator state.
The same lines run by concurrent tasks are `genStep` below; `seq_points` shows that the two
agree when the tasks run one after another. -/
def genStart (rnd : ℚ → ℚ) (lo hi : Nat → ℚ) (nvars : Int) (trial : Int) (g : Drand48)
    (pt0 : Nat → ℚ) : (Nat → ℚ) × Drand48 :=
  forLoop nvars.toNat
    (fun i st => (Function.update st.1 i (startCoord rnd lo hi i (drand48 st.2).1), (drand48 st.2).2))
    (pt0, srand48 trial g)

/-! ## The local search `mds` as a collaborator (prototype at lines 13-14) -/

/-- What one call of `mds` leaves in its output parameters. -/
structure MdsOut where
  endpoint : Nat → Double
  val : Double
  ni : Int
  nf : Int
  term : Int

/-- One invocation of `mds` seen from the driver: it either returns, or calls the objective
`f(x, n)` and goes on with the value it gets.  It has no other access to `funevals`. -/
inductive MdsRun where
  | ret (out : MdsOut)
  | call (x : Nat → ℚ) (n : Int) (k : ℚ → MdsRun)

/-- The input arguments of `mds`. -/
structure MdsArgs where
  startpoint : Nat → ℚ
  n : Int
  eps : ℚ
  maxfevals : Int
  maxiter : Int
  mu : ℚ
  theta : ℚ
  delta : ℚ
  xl : Nat → ℚ
  xr : Nat → ℚ

/-- Runs an invocation against the real `f`, threading the counter. -/
def MdsRun.exec (rnd : ℚ → ℚ) : MdsRun → Nat → MdsOut × Nat
  | .ret out, fe => (out, fe)
  | .call x n k, fe => MdsRun.exec rnd (k (f rnd x n fe).1) (f rnd x n fe).2

/-- Number of calls of `f` an invocation makes. -/
def MdsRun.calls (rnd : ℚ → ℚ) : MdsRun → Nat
  | .ret _ => 0
  | .call x n k => MdsRun.calls rnd (k (f rnd x n 0).1) + 1

/-! ## One task and a run of the tasks one after another (lines 84-126) -/

/-- Prior contents of the arrays declared without initialiser. -/
structure Uninit where
  lower0 : Nat → ℚ
  upper0 : Nat → ℚ
  best_pt0 : Nat → Double
  startpt0 : Int → Nat → ℚ

/-- The state the tasks share. -/
structure Shared where
  funevals : Nat
  gen : Drand48
  best : GlobalBestState

/-- The arguments line 100 passes to `mds` for a given starting point. -/
def mdsArgs (u : Uninit) (nvars : Int) (startpt : Nat → ℚ) : MdsArgs :=
  { startpoint := startpt
    n := nvars
    eps := 1 / 1000000
    maxfevals := 10000
    maxiter := 10000
    mu := 1
    theta := 1 / 4
    delta := 1 / 4
    xl := lower u.lower0
    xr := upper u.upper0 }

/-- The invocation of `mds` that task `trial` makes when nothing interferes with its draws. -/
def invocation (rnd : ℚ → ℚ) (mds : MdsArgs → MdsRun) (u : Uninit) (nvars : Int) (trial : Int)
    (g : Drand48) : MdsRun :=
  mds (mdsArgs u nvars
    (genStart rnd (lower u.lower0) (upper u.upper0) nvars trial g (u.startpt0 trial)).1)

/-- The result task `trial` brings to the critical section of line 104 when it finds the
shared state `sh` and nothing interferes: what `mds` left in its output parameters. -/
def taskResult (rnd : ℚ → ℚ) (mds : MdsArgs → MdsRun) (u : Uninit) (nvars : Int) (sh : Shared)
    (trial : Int) : TrialResult :=
  { trial := trial
    private_endpt := ((invocation rnd mds u nvars trial sh.gen).exec rnd sh.funevals).1.endpoint
    private_fx := ((invocation rnd mds u nvars trial sh.gen).exec rnd sh.funevals).1.val
    private_nt := ((invocation rnd mds u nvars trial sh.gen).exec rnd sh.funevals).1.ni
    private_nf := ((invocation rnd mds u nvars trial sh.gen).exec rnd sh.funevals).1.nf }

/-- The task body of lines 88-114 run alone, with no other task active: starting point, `mds`,
reduction. -/
def task (rnd : ℚ → ℚ) (mds : MdsArgs → MdsRun) (u : Uninit) (nvars : Int) (sh : Shared)
    (trial : Int) : Shared :=
  { funevals := ((invocation rnd mds u nvars trial sh.gen).exec rnd sh.funevals).2
    gen := (genStart rnd (lower u.lower0) (upper u.upper0) nvars trial sh.gen (u.startpt0 trial)).2
    best := keepBest nvars [] sh.best (taskResult rnd mds u nvars sh trial) }

/-- The shared state when the parallel region is entered: counter `0`, generator in the
state `g0` the process starts with, best result as initialised. -/
def initShared (u : Uninit) (g0 : Drand48) : Shared :=
  { funevals := 0, gen := g0, best := initBest u.best_pt0 }

/-- The trial indices `0 .. ntrials-1` of the loop of line 84. -/
def trials (ntrials : Int) : List Int :=
  (List.range ntrials.toNat).map Int.ofNat

/-- All tasks of `order` run to completion one after another, in that order. -/
def runTasks (rnd : ℚ → ℚ) (mds : MdsArgs → MdsRun) (u : Uninit) (nvars : Int)
    (order : List Int) (sh : Shared) : Shared :=
  order.foldl (task rnd mds u nvars) sh

/-- The evaluation count `nf` that `mds` returns to task `trial` (it is the same whatever the
shared state the task finds, see `taskResult_nf`). -/
def returnedNf (rnd : ℚ → ℚ) (mds : MdsArgs → MdsRun) (u : Uninit) (nvars : Int)
    (g0 : Drand48) (trial : Int) : Int :=
  ((invocation rnd mds u nvars trial g0).exec rnd 0).1.nf

/-! ## Concurrent tasks: the counter increment of `f` (line 25)

`funevals++` on a shared variable with no `atomic` or `critical` around it is a read of
`funevals` followed by a write of the value read plus one.  Tasks on different threads
interleave these two accesses; a schedule lists which task takes the next access. -/

/-- Where a task stands in the `funevals++` of its one call of `f`. -/
inductive IncPc where
  | load
  | store (r : Nat)
  | done
deriving DecidableEq

/-- The shared counter and the position of every task. -/
structure CounterState where
  funevals : Nat
  pcs : List IncPc
deriving DecidableEq

/-- Task `t` performs its next access. -/
def incStep (s : CounterState) (t : Nat) : CounterState :=
  match s.pcs.get? t with
  | some .load => { s with pcs := s.pcs.set t (.store s.funevals) }
  | some (.store r) => { funevals := (r + 1) % 2 ^ 64, pcs := s.pcs.set t .done }
  | _ => s

/-- The state with `N` tasks, each about to call `f` once, and the counter at `0`. -/
def incInit (N : Nat) : CounterState :=
  { funevals := 0, pcs := List.replicate N .load }

/-- The accesses happen in the order of the schedule. -/
def incRun (sched : List Nat) (s : CounterState) : CounterState :=
  sched.foldl incStep s

/-- Every task has finished its call. -/
def incAllDone (s : CounterState) : Bool :=
  s.pcs.all (fun pc => decide (pc = .done))

/-! ## Concurrent tasks: the generator and the loop index (lines 71 and 92-97)

`srand48` and `drand48` act on one process-wide state, and the loop index `i` is declared
in `main` outside the parallel region, so it is shared by the tasks (only `trial` is
`firstprivate`).  A task's generation of its starting point is the sequence of accesses
`srand48(trial)`, `i = 0`, and per iteration the test `i < nvars`, the assignment of line 96
and `i++`. -/

/-- Where a task stands in lines 92-97. -/
inductive GenPc where
  | seed
  | init
  | test
  | draw
  | incr
  | done
deriving DecidableEq

/-- The private part of a task: its trial index, its position, and `private_startpt`
(`none` where nothing has been written). -/
structure GenTask where
  trial : Int
  pc : GenPc
  private_startpt : Nat → Option ℚ

/-- The shared generator state and loop index, and the tasks. -/
structure GenState where
  gen : Drand48
  i : Int
  tasks : List GenTask

/-- Task `t` performs its next access. -/
def genStep (rnd : ℚ → ℚ) (lo hi : Nat → ℚ) (nvars : Int) (s : GenState) (t : Nat) : GenState :=
  match s.tasks.get? t with
  | none => s
  | some tk =>
    match tk.pc with
    | .seed => { s with gen := srand48 tk.trial s.gen, tasks := s.tasks.set t { tk with pc := .init } }
    | .init => { s with i := 0, tasks := s.tasks.set t { tk with pc := .test } }
    | .test => { s with tasks := s.tasks.set t { tk with pc := if s.i < nvars then .draw else .done } }
    | .draw =>
      { s with
        gen := (drand48 s.gen).2
        tasks := s.tasks.set t
          { tk with
            pc := .incr
            private_startpt := Function.update tk.private_startpt s.i.toNat
              (some (startCoord rnd lo hi s.i.toNat (drand48 s.gen).1)) } }
    | .incr => { s with i := s.i + 1, tasks := s.tasks.set t { tk with pc := .test } }
    | .done => s

/-- One task per trial index `0 .. ntrials-1`, none started; `g0` and `i0` are the generator
state and the value of `i` when the parallel region is entered. -/
def genInit (ntrials : Int) (g0 : Drand48) (i0 : Int) : GenState :=
  { gen := g0
    i := i0
    tasks := (trials ntrials).map (fun trial => { trial := trial, pc := .seed, private_startpt := fun _ => none }) }

/-- The accesses happen in the order of the schedule. -/
def genRun (rnd : ℚ → ℚ) (lo hi : Nat → ℚ) (nvars : Int) (sched : List Nat) (s : GenState) : GenState :=
  sched.foldl (genStep rnd lo hi nvars) s

/-- Every task has left its loop. -/
def genAllDone (s : GenState) : Bool :=
  s.tasks.all (fun tk => decide (tk.pc = .done))

/-- The starting points held by the tasks: coordinates `0 .. nvars-1` of each, by trial. -/
def startPoints (nvars : Int) (s : GenState) : List (List (Option ℚ)) :=
  s.tasks.map (fun tk => (List.range nvars.toNat).map tk.private_startpt)

/-- The schedule in which task `t` takes `k` accesses in a row. -/
def burst (t k : Nat) : List Nat := List.replicate k t

/-! ## Vocabulary of the statements -/

/-- The number `v` is a minimum of the values `vs`: it is one of them and none of them is
smaller for C's `<` (NaN entries, which compare with nothing, do not count). -/
def IsMinOf (v : Double) (vs : List Double) : Prop :=
  v ≠ .nan ∧ v ∈ vs ∧ ∀ w ∈ vs, Double.lt w v = false

/-- The generator state after `k` further calls of `drand48`. -/
def advance (k : Nat) (g : Drand48) : Drand48 :=
  forLoop k (fun _ st => (drand48 st).2) g

/-- Number of calls of `f` that the invocation of `mds` for `trial` makes. -/
def objectiveCalls (rnd : ℚ → ℚ) (mds : MdsArgs → MdsRun) (u : Uninit) (nvars : Int)
    (g0 : Drand48) (trial : Int) : Nat :=
  (invocation rnd mds u nvars trial g0).calls rnd

/-- Entries `k, k+1, ..., k+m-1` of a task's array written from `m` successive draws, the
first taken in generator state `g`. -/
def fill (rnd : ℚ → ℚ) (lo hi : Nat → ℚ) : Nat → Nat → Drand48 → (Nat → Option ℚ) → (Nat → Option ℚ)
  | 0, _, _, pt => pt
  | m + 1, k, g, pt =>
    fill rnd lo hi m (k + 1) (drand48 g).2
      (Function.update pt k (some (startCoord rnd lo hi k (drand48 g).1)))

/-- The task once it has left its loop, having entered it in generator state `g`. -/
def finish (rnd : ℚ → ℚ) (lo hi : Nat → ℚ) (n : Nat) (g : Drand48) (tk : GenTask) : GenTask :=
  { tk with pc := .done, private_startpt := fill rnd lo hi n 0 g tk.private_startpt }


/-- The content of an array entry: what was written there, or else what the array held
before. -/
def arrayValue (prior : Nat → ℚ) (written : Nat → Option ℚ) (i : Nat) : ℚ :=
  (written i).getD (prior i)

/-! ## Schedules -/

/-- The schedule in which the tasks `0 .. ntrials-1` run lines 92-97 one after another:
each takes its `3 * nvars + 3` accesses in a row. -/
def seqSchedule (ntrials nvars : Nat) : List Nat :=
  (List.range ntrials).flatMap (fun t => burst t (3 * nvars + 3))

/-- The schedule in which task 0 calls `srand48(0)`, then task 1 calls `srand48(1)`, and
after that every task runs the rest of its accesses in a row, in the order of the trials. -/
def racySchedule (ntrials nvars : Nat) : List Nat :=
  [0, 1] ++ burst 0 (3 * nvars + 2) ++ burst 1 (3 * nvars + 2)
    ++ (List.range' 2 (ntrials - 2)).flatMap (fun t => burst t (3 * nvars + 3))

/-- The schedule in which task 0 runs up to its first draw, task 1 then runs up to its first
`i++`, task 0 runs on to the end of its loop, and task 1 makes its next test. -/
def skipSchedule : List Nat :=
  burst 0 4 ++ burst 1 5 ++ burst 0 8 ++ burst 1 1

/-- The schedule in which each of `N` tasks first reads the counter and then, after all have
read it, each writes it back. -/
def readThenWrite (N : Nat) : List Nat := List.range N ++ List.range N

/-- The schedule in which each of `N` tasks makes its whole call of `f` before the next
starts. -/
def oneByOne (N : Nat) : List Nat := (List.range N).flatMap (fun t => [t, t])

/-- The schedule `skipSchedule` followed by the tasks of trials `2 .. 63` one after another. -/
def skipThenRest : List Nat :=
  skipSchedule ++ (List.range' 2 62).flatMap (fun t => burst t 15)

/-! ## Concrete inputs -/

/-- The rounding of exact arithmetic. -/
def exactArith : ℚ → ℚ := id

/-- The state of the generator when a process starts (POSIX initial values). -/
def drand48Start : Drand48 :=
  { x := 0x1234ABCD330E, a := 0x5DEECE66D, c := 0xB }

/-- Array contents used as concrete input: every uninitialised entry holds `0`. -/
def zeroMem : Uninit :=
  { lower0 := fun _ => 0
    upper0 := fun _ => 0
    best_pt0 := fun _ => .fin 0
    startpt0 := fun _ _ => 0 }

/-- A result of trial `trial` with value `v`, used as concrete input. -/
def sampleResult (trial : Int) (v : Double) : TrialResult :=
  { trial := trial
    private_endpt := fun _ => .fin 1
    private_fx := v
    private_nt := 10
    private_nf := 50 }

/-- A result of trial 7 with value `5` and ending point `(10, 11, 12, 13, ...)`, used as
concrete input. -/
def cutResult : TrialResult :=
  { trial := 7
    private_endpt := fun i => .fin (10 + i)
    private_fx := .fin 5
    private_nt := 10
    private_nf := 50 }

/-- Contents of `best_pt` before anything is stored, used as concrete input. -/
def priorPt : Nat → Double := fun _ => .fin (-777)

/-- The writes to `i` of another task that runs the whole of its lines 92-97 between the copy
of `best_pt[0]` and the `i++` that follows it: its loop leaves `i = 4`. -/
def cutWrites : List IndexWrites :=
  [{ atTest := none, atBody := none, atIncr := some 4 }]

/-- The result `sampleResult trial v` arriving while no other task writes `i`. -/
def sampleArrival (trial : Int) (v : Double) : Arrival :=
  { result := sampleResult trial v, writes := [] }

/-- A stub for `mds` that evaluates nothing and reports the fixed count `nf = 5`. -/
def stubMds : MdsArgs → MdsRun :=
  fun _ => .ret { endpoint := fun _ => .fin 0, val := .fin 0, ni := 1, nf := 5, term := 0 }

/-- A stand-in for `mds` that evaluates `f` once, at the starting point, and reports `nf = 1`. -/
def probeMds : MdsArgs → MdsRun :=
  fun a => .call a.startpoint a.n
    (fun v => .ret { endpoint := fun i => .fin (a.startpoint i), val := .fin v, ni := 0, nf := 1,
                     term := 0 })

/-- The starting points of the program (`nvars = 4`, `ntrials = 64`, exact arithmetic) under
a schedule; the loop index holds `MAXVARS = 250` when the parallel region is entered, left
there by the loops of lines 75-76. -/
def programPoints (sched : List Nat) : List (List (Option ℚ)) :=
  startPoints 4
    (genRun exactArith (lower zeroMem.lower0) (upper zeroMem.upper0) 4 sched
      (genInit 64 drand48Start 250))

/-- The starting points of the program when each task generates its point without
interference, as `genStart` does. -/
def isolatedPoints : List (List (Option ℚ)) :=
  (trials 64).map (fun trial => (List.range 4).map (fun i =>
    some ((genStart exactArith (lower zeroMem.lower0) (upper zeroMem.upper0) 4 trial drand48Start
      (zeroMem.startpt0 trial)).1 i)))

/-- The tasks of trials `2 .. 63`, none started. -/
def laterTasks : List GenTask :=
  ((List.range' 2 62).map Int.ofNat).map
    (fun trial => { trial := trial, pc := .seed, private_startpt := fun _ => none })

/-- What the tasks of the program hold after the schedule `racySchedule 64 4`. -/
def racyTasks : List GenTask :=
  finish exactArith (lower zeroMem.lower0) (upper zeroMem.upper0) 4 (srand48 1 drand48Start)
      { trial := 0, pc := .seed, private_startpt := fun _ => none }
    :: finish exactArith (lower zeroMem.lower0) (upper zeroMem.upper0) 4
        (advance 4 (srand48 1 drand48Start))
        { trial := 1, pc := .seed, private_startpt := fun _ => none }
    :: laterTasks.map (fun tk =>
        finish exactArith (lower zeroMem.lower0) (upper zeroMem.upper0) 4
          (srand48 tk.trial drand48Start) tk)

/-! ## Lemmas on values and loops -/

theorem dlt_nan_left (b : Double) : Double.lt .nan b = false := by
  cases b <;> rfl

theorem dlt_irrefl (a : Double) : Double.lt a a = false := by
  cases a <;> simp [Double.lt]

theorem dlt_trans {a b c : Double} (h1 : Double.lt a b = true) (h2 : Double.lt b c = true) :
    Double.lt a c = true := by
  cases a <;> cases b <;> cases c <;> simp_all [Double.lt]
  exact lt_trans h1 h2

theorem dlt_of_ge {a b : Double} (h : Double.ge a b = true) : Double.lt a b = false := by
  cases a <;> cases b <;> simp_all [Double.lt, Double.ge, Double.le]

theorem dle_of_not_lt {a b : Double} (ha : a ≠ .nan) (hb : b ≠ .nan)
    (h : Double.lt a b = false) : Double.le b a = true := by
  cases a <;> cases b <;> simp_all [Double.lt, Double.le]

theorem dlt_of_lt_of_le {a b c : Double} (h1 : Double.lt a b = true) (h2 : Double.le b c = true) :
    Double.lt a c = true := by
  cases a <;> cases b <;> cases c <;> simp_all [Double.lt, Double.le]
  exact lt_of_lt_of_le h1 h2

/-- The copy loop writes exactly the indices below `n`. -/
theorem forLoop_update_lt {α : Type} (src : Nat → α) (n : Nat) (dst : Nat → α) (i : Nat) (h : i < n) :
    forLoop n (fun i pt => Function.update pt i (src i)) dst i = src i := by
  induction n with
  | zero => omega
  | succ k ih =>
    simp only [forLoop]
    by_cases hik : i = k
    · subst hik; simp
    · rw [Function.update_noteq hik]
      exact ih (by omega)

theorem forLoop_update_ge {α : Type} (src : Nat → α) (n : Nat) (dst : Nat → α) (i : Nat) (h : n ≤ i) :
    forLoop n (fun i pt => Function.update pt i (src i)) dst i = dst i := by
  induction n with
  | zero => rfl
  | succ k ih =>
    simp only [forLoop]
    rw [Function.update_noteq (by omega)]
    exact ih (by omega)

/-! ## The reducer -/

theorem keepBest_of_lt {nvars : Int} {ws : List IndexWrites} {s : GlobalBestState}
    {c : TrialResult} (h : Double.lt c.private_fx s.best_fx = true) :
    keepBest nvars ws s c =
      { best_trial := c.trial
        best_nt := c.private_nt
        best_nf := c.private_nf
        best_fx := c.private_fx
        best_pt := copyLoop nvars c.private_endpt ws 0 s.best_pt } := by
  simp [keepBest, h]

theorem keepBest_of_not_lt {nvars : Int} {ws : List IndexWrites} {s : GlobalBestState}
    {c : TrialResult} (h : Double.lt c.private_fx s.best_fx = false) :
    keepBest nvars ws s c = s := by
  simp [keepBest, h]

/-- The copy loop run alone writes exactly the indices below `nvars`. -/
theorem copyLoop_alone (nvars : Int) (src pt : Nat → Double) (j : Nat) :
    copyLoop nvars src [] 0 pt j = if j < nvars.toNat then src j else pt j := by
  have h : copyLoop nvars src [] 0 pt
      = forLoop nvars.toNat (fun k a => Function.update a k (src k)) pt := by
    simp [copyLoop]
  rw [h]
  by_cases hj : j < nvars.toNat
  · rw [if_pos hj]; exact forLoop_update_lt src nvars.toNat pt j hj
  · rw [if_neg hj]; exact forLoop_update_ge src nvars.toNat pt j (by omega)

theorem reduce_nil (nvars : Int) (s : GlobalBestState) : reduce nvars s [] = s := rfl

theorem reduce_cons (nvars : Int) (s : GlobalBestState) (r : Arrival) (rs : List Arrival) :
    reduce nvars s (r :: rs) = reduce nvars (keepBest nvars r.writes s r.result) rs := rfl

theorem reduce_append (nvars : Int) (s : GlobalBestState) (xs ys : List Arrival) :
    reduce nvars s (xs ++ ys) = reduce nvars (reduce nvars s xs) ys := by
  simp [reduce, List.foldl_append]

theorem dlt_ne_nan_left {a b : Double} (h : Double.lt a b = true) : a ≠ .nan := by
  intro ha; subst ha; simp [dlt_nan_left] at h

/-- Two numbers that are different and not NaN are ordered one way or the other. -/
theorem dlt_of_ne {a b : Double} (ha : a ≠ .nan) (hb : b ≠ .nan) (hne : a ≠ b)
    (h : Double.lt a b = false) : Double.lt b a = true := by
  cases a <;> cases b <;> simp_all [Double.lt]
  exact lt_of_le_of_ne h (Ne.symm hne)

theorem deq_of_le_of_not_lt {a b : Double} (h1 : Double.le a b = true)
    (h2 : Double.lt a b = false) : a = b := by
  cases a <;> cases b <;> simp_all [Double.lt, Double.le]
  exact le_antisymm h1 h2

/-- From any state holding a number, the reducer ends on the least of that number and the
values it was fed. -/
theorem reduce_min_aux (nvars : Int) (rs : List Arrival) :
    ∀ s : GlobalBestState, s.best_fx ≠ .nan →
      (reduce nvars s rs).best_fx ≠ .nan ∧
      (reduce nvars s rs).best_fx ∈ s.best_fx :: rs.map (fun r => r.result.private_fx) ∧
      Double.lt s.best_fx (reduce nvars s rs).best_fx = false ∧
      ∀ w ∈ rs.map (fun r => r.result.private_fx), Double.lt w (reduce nvars s rs).best_fx = false := by
  induction rs with
  | nil =>
    intro s hs
    simp [reduce_nil, hs, dlt_irrefl]
  | cons r rs ih =>
    intro s hs
    rw [reduce_cons]
    cases hlt : Double.lt r.result.private_fx s.best_fx with
    | true =>
      have hk : (keepBest nvars r.writes s r.result).best_fx = r.result.private_fx := by rw [keepBest_of_lt hlt]
      obtain ⟨h1, h2, h3, h4⟩ := ih (keepBest nvars r.writes s r.result) (by rw [hk]; exact dlt_ne_nan_left hlt)
      rw [hk] at h2 h3
      refine ⟨h1, ?_, ?_, ?_⟩
      · simp only [List.map_cons, List.mem_cons] at h2 ⊢
        tauto
      · cases hc : Double.lt s.best_fx (reduce nvars (keepBest nvars r.writes s r.result) rs).best_fx with
        | false => rfl
        | true => rw [dlt_trans hlt hc] at h3; exact absurd h3 (by simp)
      · intro w hw
        simp only [List.map_cons, List.mem_cons] at hw
        rcases hw with hw | hw
        · rw [hw]; exact h3
        · exact h4 w hw
    | false =>
      rw [keepBest_of_not_lt hlt]
      obtain ⟨h1, h2, h3, h4⟩ := ih s hs
      refine ⟨h1, ?_, h3, ?_⟩
      · simp only [List.map_cons, List.mem_cons] at h2 ⊢
        tauto
      · intro w hw
        simp only [List.map_cons, List.mem_cons] at hw
        rcases hw with hw | hw
        · rw [hw]
          cases hc : Double.lt r.result.private_fx (reduce nvars s rs).best_fx with
          | false => rfl
          | true =>
            have hle := dle_of_not_lt hs h1 h3
            rw [dlt_of_lt_of_le hc hle] at hlt
            exact absurd hlt (by simp)
        · exact h4 w hw

/-- Once a state holds a value that nothing later undercuts, it stays. -/
theorem reduce_stays (nvars : Int) (rs : List Arrival) :
    ∀ s : GlobalBestState, (∀ q ∈ rs, Double.lt q.result.private_fx s.best_fx = false) →
      reduce nvars s rs = s := by
  induction rs with
  | nil => intro s _; rfl
  | cons r rs ih =>
    intro s h
    rw [reduce_cons, keepBest_of_not_lt (h r (List.mem_cons_self _ _))]
    exact ih s (fun q hq => h q (List.mem_cons_of_mem _ hq))

/-- While every value fed is larger than `v`, the state keeps a value larger than `v`. -/
theorem reduce_above (nvars : Int) (v : Double) (rs : List Arrival) :
    ∀ s : GlobalBestState, Double.lt v s.best_fx = true →
      (∀ p ∈ rs, Double.lt p.result.private_fx v = false ∧ p.result.private_fx ≠ v) →
      Double.lt v (reduce nvars s rs).best_fx = true := by
  induction rs with
  | nil => intro s hs _; exact hs
  | cons r rs ih =>
    intro s hs h
    rw [reduce_cons]
    apply ih
    · cases hlt : Double.lt r.result.private_fx s.best_fx with
      | true =>
        rw [keepBest_of_lt hlt]
        obtain ⟨h1, h2⟩ := h r (List.mem_cons_self _ _)
        exact dlt_of_ne (dlt_ne_nan_left hlt) (dlt_ne_nan_left hs) h2 h1
      | false => rw [keepBest_of_not_lt hlt]; exact hs
    · exact fun p hp => h p (List.mem_cons_of_mem _ hp)

/-- The general form of the tie-break: from a state above `r`'s value, if `r` is the first
result with the least value, the run ends in the state that `r` leaves. -/
theorem reduce_first_min (nvars : Int) (s : GlobalBestState) (pre post : List Arrival)
    (r : Arrival) (hlt : Double.lt r.result.private_fx s.best_fx = true)
    (hmin : ∀ w ∈ pre ++ r :: post, Double.lt w.result.private_fx r.result.private_fx = false)
    (hfirst : ∀ p ∈ pre, p.result.private_fx ≠ r.result.private_fx) :
    reduce nvars s (pre ++ r :: post) = keepBest nvars r.writes (reduce nvars s pre) r.result ∧
    Double.lt r.result.private_fx (reduce nvars s pre).best_fx = true := by
  have habove : Double.lt r.result.private_fx (reduce nvars s pre).best_fx = true :=
    reduce_above nvars r.result.private_fx pre s hlt
      (fun p hp => ⟨hmin p (List.mem_append_left _ hp), hfirst p hp⟩)
  refine ⟨?_, habove⟩
  rw [reduce_append, reduce_cons]
  apply reduce_stays
  intro q hq
  rw [keepBest_of_lt habove]
  exact hmin q (List.mem_append_right _ (List.mem_cons_of_mem _ hq))

/-- Started from the initial state, the reducer ends on the minimum of `1e10` and the values
it was fed. -/
theorem reduce_isMinOf (nvars : Int) (pt0 : Nat → Double) (rs : List Arrival) :
    IsMinOf (reduce nvars (initBest pt0) rs).best_fx
      (.fin 10000000000 :: rs.map (fun r => r.result.private_fx)) := by
  obtain ⟨h1, h2, h3, h4⟩ := reduce_min_aux nvars rs (initBest pt0) (by simp [initBest])
  have hinit : (initBest pt0).best_fx = .fin 10000000000 := rfl
  rw [hinit] at h2 h3
  refine ⟨h1, h2, ?_⟩
  intro w hw
  simp only [List.mem_cons] at hw
  rcases hw with hw | hw
  · rw [hw]; exact h3
  · exact h4 w hw

/-- A list of values has at most one minimum. -/
theorem isMinOf_unique {v w : Double} {vs : List Double} (hv : IsMinOf v vs) (hw : IsMinOf w vs) :
    v = w := by
  by_contra hne
  have h1 := dlt_of_ne hv.1 hw.1 hne (hw.2.2 v hv.2.1)
  rw [hv.2.2 w hw.2.1] at h1
  exact absurd h1 (by simp)

/-- Being the minimum does not depend on the order of the values. -/
theorem isMinOf_perm {v : Double} {vs ws : List Double} (h : vs.Perm ws) (hv : IsMinOf v vs) :
    IsMinOf v ws :=
  ⟨hv.1, h.mem_iff.mp hv.2.1, fun w hw => hv.2.2 w (h.mem_iff.mpr hw)⟩

/-! ## The generator and the starting points -/

theorem isRounding_exactArith : IsRounding exactArith :=
  ⟨fun _ _ h => h, fun _ _ => rfl⟩

theorem representable_int (m : Int) (h : |m| ≤ 2 ^ 53) : Representable (m : ℚ) :=
  ⟨m, 0, h, by omega, by simp⟩

/-- Rounding does not cross an integer bound from below. -/
theorem rnd_le_int {rnd : ℚ → ℚ} (hr : IsRounding rnd) {y : ℚ} (B : Int) (hB : |B| ≤ 2 ^ 53)
    (h : y ≤ (B : ℚ)) : rnd y ≤ (B : ℚ) := by
  have := hr.1 h
  rwa [hr.2 _ (representable_int B hB)] at this

/-- Rounding does not cross an integer bound from above. -/
theorem int_le_rnd {rnd : ℚ → ℚ} (hr : IsRounding rnd) {y : ℚ} (B : Int) (hB : |B| ≤ 2 ^ 53)
    (h : (B : ℚ) ≤ y) : (B : ℚ) ≤ rnd y := by
  have := hr.1 h
  rwa [hr.2 _ (representable_int B hB)] at this

theorem lower_eq (mem : Nat → ℚ) (i : Nat) (h : i < MAXVARS) : lower mem i = -2 :=
  forLoop_update_lt (fun _ => (-2 : ℚ)) MAXVARS mem i h

theorem upper_eq (mem : Nat → ℚ) (i : Nat) (h : i < MAXVARS) : upper mem i = 2 :=
  forLoop_update_lt (fun _ => (2 : ℚ)) MAXVARS mem i h

theorem advance_succ (k : Nat) (g : Drand48) : advance (k + 1) g = (drand48 (advance k g)).2 := rfl

/-- The loop of lines 95-97 in closed form: coordinate `i < n` comes from draw number `i + 1`
after the reseeding, the other entries are untouched, and the generator has advanced `n`
times. -/
theorem genLoop_eq (rnd : ℚ → ℚ) (lo hi : Nat → ℚ) (n : Nat) (pt0 : Nat → ℚ) (g : Drand48) :
    forLoop n
      (fun i (st : (Nat → ℚ) × Drand48) =>
        (Function.update st.1 i (startCoord rnd lo hi i (drand48 st.2).1), (drand48 st.2).2))
      (pt0, g)
    = (fun i => if i < n then startCoord rnd lo hi i (drand48 (advance i g)).1 else pt0 i,
       advance n g) := by
  induction n with
  | zero => simp [forLoop, advance]
  | succ k ih =>
    simp only [forLoop]
    rw [ih]
    refine Prod.ext ?_ rfl
    funext i
    simp only
    by_cases hik : i = k
    · subst hik; simp
    · rw [Function.update_noteq hik]
      by_cases hlt : i < k
      · simp [hlt, Nat.lt_succ_of_lt hlt]
      · have : ¬ i < k + 1 := by omega
        simp [hlt, this]

theorem genStart_eq (rnd : ℚ → ℚ) (lo hi : Nat → ℚ) (nvars trial : Int) (g : Drand48)
    (pt0 : Nat → ℚ) :
    genStart rnd lo hi nvars trial g pt0
    = (fun i => if i < nvars.toNat
          then startCoord rnd lo hi i (drand48 (advance i (srand48 trial g))).1 else pt0 i,
       advance nvars.toNat (srand48 trial g)) :=
  genLoop_eq rnd lo hi nvars.toNat pt0 (srand48 trial g)

/-- Reseeding forgets the state it finds. -/
theorem srand48_const (seedval : Int) (g1 g2 : Drand48) : srand48 seedval g1 = srand48 seedval g2 := rfl

/-- What a task generates does not depend on the generator state it finds. -/
theorem genStart_indep (rnd : ℚ → ℚ) (lo hi : Nat → ℚ) (nvars trial : Int) (g1 g2 : Drand48)
    (pt0 : Nat → ℚ) :
    genStart rnd lo hi nvars trial g1 pt0 = genStart rnd lo hi nvars trial g2 pt0 := by
  rw [genStart_eq, genStart_eq, srand48_const trial g1 g2]

/-- A draw is `X / 2 ^ 48` for a natural number `X < 2 ^ 48`. -/
theorem drand48_val (g : Drand48) :
    ∃ X : Nat, X < 2 ^ 48 ∧ (drand48 g).1 = (X : ℚ) / 2 ^ 48 :=
  ⟨(g.a * g.x + g.c) % 2 ^ 48, Nat.mod_lt _ (by norm_num), rfl⟩

/-- With the bounds `-2` and `2`, line 96 computes `(X - 2 ^ 47) / 2 ^ 46` without any
rounding error, for the draw `X / 2 ^ 48`. -/
theorem startCoord_exact {rnd : ℚ → ℚ} (hr : IsRounding rnd) (lo hi : Nat → ℚ) (i : Nat)
    (hlo : lo i = -2) (hhi : hi i = 2) (X : Nat) (hX : X < 2 ^ 48) :
    startCoord rnd lo hi i ((X : ℚ) / 2 ^ 48) = (((X : Int) - 2 ^ 47 : Int) : ℚ) / 2 ^ 46 := by
  have hXi : (X : Int) < 2 ^ 48 := by exact_mod_cast hX
  have hX0 : (0 : Int) ≤ (X : Int) := Int.natCast_nonneg X
  unfold startCoord
  rw [hlo, hhi]
  have h4 : rnd (2 - (-2 : ℚ)) = 4 := by
    have := hr.2 _ (representable_int 4 (by norm_num))
    norm_num at this ⊢
    exact this
  rw [h4]
  have hmul : rnd (4 * ((X : ℚ) / 2 ^ 48)) = (X : ℚ) / 2 ^ 46 := by
    have hrep : Representable ((X : ℚ) / 2 ^ 46) :=
      ⟨(X : Int), 46, by rw [abs_of_nonneg hX0]; omega, by norm_num, by push_cast; rfl⟩
    have : (4 : ℚ) * ((X : ℚ) / 2 ^ 48) = (X : ℚ) / 2 ^ 46 := by ring
    rw [this]
    exact hr.2 _ hrep
  rw [hmul]
  have hadd : (-2 : ℚ) + (X : ℚ) / 2 ^ 46 = (((X : Int) - 2 ^ 47 : Int) : ℚ) / 2 ^ 46 := by
    push_cast; ring
  rw [hadd]
  apply hr.2
  refine ⟨(X : Int) - 2 ^ 47, 46, ?_, by norm_num, rfl⟩
  rw [abs_le]
  constructor <;> omega

/-- With the bounds `-2` and `2`, every coordinate computed by line 96 lies in `[-2, 2)`. -/
theorem startCoord_bounds {rnd : ℚ → ℚ} (hr : IsRounding rnd) (lo hi : Nat → ℚ) (i : Nat)
    (hlo : lo i = -2) (hhi : hi i = 2) (g : Drand48) :
    -2 ≤ startCoord rnd lo hi i (drand48 g).1 ∧ startCoord rnd lo hi i (drand48 g).1 < 2 := by
  obtain ⟨X, hX, hu⟩ := drand48_val g
  rw [hu, startCoord_exact hr lo hi i hlo hhi X hX]
  have hXq : (X : ℚ) < 2 ^ 48 := by exact_mod_cast hX
  have hX0 : (0 : ℚ) ≤ (X : ℚ) := Nat.cast_nonneg X
  push_cast
  constructor
  · rw [le_div_iff₀ (by norm_num)]; linarith
  · rw [div_lt_iff₀ (by norm_num)]; linarith

/-- Run alone, lines 92-97 give a starting point inside the bounds: for every trial index and
every index `i < nvars` of the arrays, `lower[i] <= startpt[i] < upper[i]`, that is
`-2 <= startpt[i] < 2`, whatever the rounding of the double operations. -/
theorem startpt_in_bounds (rnd : ℚ → ℚ) (hr : IsRounding rnd) (u : Uninit) (nvars trial : Int)
    (g : Drand48) (i : Nat) (hi : (i : Int) < nvars) (hM : i < MAXVARS) :
    lower u.lower0 i
        ≤ (genStart rnd (lower u.lower0) (upper u.upper0) nvars trial g (u.startpt0 trial)).1 i ∧
    (genStart rnd (lower u.lower0) (upper u.upper0) nvars trial g (u.startpt0 trial)).1 i
        < upper u.upper0 i ∧
    -2 ≤ (genStart rnd (lower u.lower0) (upper u.upper0) nvars trial g (u.startpt0 trial)).1 i ∧
    (genStart rnd (lower u.lower0) (upper u.upper0) nvars trial g (u.startpt0 trial)).1 i < 2 := by
  have hlt : i < nvars.toNat := by omega
  have hb := startCoord_bounds hr (lower u.lower0) (upper u.upper0) i
    (lower_eq u.lower0 i hM) (upper_eq u.upper0 i hM) (advance i (srand48 trial g))
  rw [genStart_eq]
  simp only [hlt, if_true]
  rw [lower_eq u.lower0 i hM, upper_eq u.upper0 i hM]
  exact ⟨hb.1, hb.2, hb.1, hb.2⟩

/-! ## The objective function -/

/-- One iteration of the loop of line 28 keeps the running sum between `0` and `3609` times
the number of iterations done. -/
theorem f_step_bound {rnd : ℚ → ℚ} (hr : IsRounding rnd) (x : Nat → ℚ) (k : Nat) (fv : ℚ)
    (hk : k < 250) (hx0 : -2 ≤ x k ∧ x k ≤ 2) (hx1 : -2 ≤ x (k + 1) ∧ x (k + 1) ≤ 2)
    (hfv : 0 ≤ fv ∧ fv ≤ 3609 * (k : ℚ)) :
    0 ≤ rnd (rnd (fv + rnd (100 * rnd ((rnd (x (k + 1) - rnd (x k * x k))) ^ 2)))
          + rnd ((rnd (x k - 1)) ^ 2)) ∧
    rnd (rnd (fv + rnd (100 * rnd ((rnd (x (k + 1) - rnd (x k * x k))) ^ 2)))
          + rnd ((rnd (x k - 1)) ^ 2)) ≤ 3609 * ((k + 1 : Nat) : ℚ) := by
  obtain ⟨hx0l, hx0u⟩ := hx0
  obtain ⟨hx1l, hx1u⟩ := hx1
  obtain ⟨hfl, hfu⟩ := hfv
  have ha0 : (0 : ℚ) ≤ rnd (x k * x k) := by
    have := int_le_rnd hr 0 (by norm_num) (y := x k * x k) (by push_cast; nlinarith)
    simpa using this
  have ha4 : rnd (x k * x k) ≤ 4 := by
    have := rnd_le_int hr 4 (by norm_num) (y := x k * x k) (by push_cast; nlinarith)
    simpa using this
  have hb0 : (-6 : ℚ) ≤ rnd (x (k + 1) - rnd (x k * x k)) := by
    have := int_le_rnd hr (-6) (by norm_num) (y := x (k + 1) - rnd (x k * x k))
      (by push_cast; linarith)
    simpa using this
  have hb2 : rnd (x (k + 1) - rnd (x k * x k)) ≤ 2 := by
    have := rnd_le_int hr 2 (by norm_num) (y := x (k + 1) - rnd (x k * x k))
      (by push_cast; linarith)
    simpa using this
  have hp0 : (0 : ℚ) ≤ rnd ((rnd (x (k + 1) - rnd (x k * x k))) ^ 2) := by
    have := int_le_rnd hr 0 (by norm_num) (y := (rnd (x (k + 1) - rnd (x k * x k))) ^ 2)
      (by push_cast; positivity)
    simpa using this
  have hp36 : rnd ((rnd (x (k + 1) - rnd (x k * x k))) ^ 2) ≤ 36 := by
    have := rnd_le_int hr 36 (by norm_num) (y := (rnd (x (k + 1) - rnd (x k * x k))) ^ 2)
      (by push_cast; nlinarith)
    simpa using this
  have hc0 : (0 : ℚ) ≤ rnd (100 * rnd ((rnd (x (k + 1) - rnd (x k * x k))) ^ 2)) := by
    have := int_le_rnd hr 0 (by norm_num)
      (y := 100 * rnd ((rnd (x (k + 1) - rnd (x k * x k))) ^ 2)) (by push_cast; linarith)
    simpa using this
  have hc3600 : rnd (100 * rnd ((rnd (x (k + 1) - rnd (x k * x k))) ^ 2)) ≤ 3600 := by
    have := rnd_le_int hr 3600 (by norm_num)
      (y := 100 * rnd ((rnd (x (k + 1) - rnd (x k * x k))) ^ 2)) (by push_cast; linarith)
    simpa using this
  have hd0 : (0 : ℚ) ≤ rnd (fv + rnd (100 * rnd ((rnd (x (k + 1) - rnd (x k * x k))) ^ 2))) := by
    have := int_le_rnd hr 0 (by norm_num)
      (y := fv + rnd (100 * rnd ((rnd (x (k + 1) - rnd (x k * x k))) ^ 2)))
      (by push_cast; linarith)
    simpa using this
  have hdu : rnd (fv + rnd (100 * rnd ((rnd (x (k + 1) - rnd (x k * x k))) ^ 2)))
      ≤ 3609 * (k : ℚ) + 3600 := by
    have := rnd_le_int hr (3609 * (k : Int) + 3600)
      (by rw [abs_le]; constructor <;> omega)
      (y := fv + rnd (100 * rnd ((rnd (x (k + 1) - rnd (x k * x k))) ^ 2)))
      (by push_cast; linarith)
    simpa using this
  have he0 : (-3 : ℚ) ≤ rnd (x k - 1) := by
    have := int_le_rnd hr (-3) (by norm_num) (y := x k - 1) (by push_cast; linarith)
    simpa using this
  have he1 : rnd (x k - 1) ≤ 1 := by
    have := rnd_le_int hr 1 (by norm_num) (y := x k - 1) (by push_cast; linarith)
    simpa using this
  have hq0 : (0 : ℚ) ≤ rnd ((rnd (x k - 1)) ^ 2) := by
    have := int_le_rnd hr 0 (by norm_num) (y := (rnd (x k - 1)) ^ 2) (by push_cast; positivity)
    simpa using this
  have hq9 : rnd ((rnd (x k - 1)) ^ 2) ≤ 9 := by
    have := rnd_le_int hr 9 (by norm_num) (y := (rnd (x k - 1)) ^ 2) (by push_cast; nlinarith)
    simpa using this
  constructor
  · have := int_le_rnd hr 0 (by norm_num)
      (y := rnd (fv + rnd (100 * rnd ((rnd (x (k + 1) - rnd (x k * x k))) ^ 2)))
        + rnd ((rnd (x k - 1)) ^ 2))
      (by push_cast; linarith)
    simpa using this
  · have := rnd_le_int hr (3609 * ((k : Int) + 1))
      (by rw [abs_le]; constructor <;> omega)
      (y := rnd (fv + rnd (100 * rnd ((rnd (x (k + 1) - rnd (x k * x k))) ^ 2)))
        + rnd ((rnd (x k - 1)) ^ 2))
      (by push_cast; linarith)
    simpa using this

/-- The loop of line 28 after `m` iterations, for a point inside `[-2, 2]`. -/
theorem f_loop_bound {rnd : ℚ → ℚ} (hr : IsRounding rnd) (x : Nat → ℚ) (m : Nat)
    (hm : m < 250) (hx : ∀ i : Nat, i ≤ m → -2 ≤ x i ∧ x i ≤ 2) :
    0 ≤ forLoop m
        (fun i fv =>
          rnd (rnd (fv + rnd (100 * rnd ((rnd (x (i + 1) - rnd (x i * x i))) ^ 2)))
            + rnd ((rnd (x i - 1)) ^ 2)))
        0 ∧
    forLoop m
        (fun i fv =>
          rnd (rnd (fv + rnd (100 * rnd ((rnd (x (i + 1) - rnd (x i * x i))) ^ 2)))
            + rnd ((rnd (x i - 1)) ^ 2)))
        0 ≤ 3609 * (m : ℚ) := by
  induction m with
  | zero => simp [forLoop]
  | succ k ih =>
    simp only [forLoop]
    exact f_step_bound hr x k _ (by omega) (hx k (by omega)) (hx (k + 1) (by omega))
      (ih (by omega) (fun i hi => hx i (by omega)))

/-- The value of `f` at a point of `[-2, 2]^n`, `1 ≤ n ≤ 250`, is at most `3609 (n - 1)`. -/
theorem f_bound {rnd : ℚ → ℚ} (hr : IsRounding rnd) (x : Nat → ℚ) (n : Int) (h1 : 1 ≤ n)
    (hn : n ≤ 250) (hx : ∀ i : Nat, (i : Int) < n → -2 ≤ x i ∧ x i ≤ 2) (fe : Nat) :
    0 ≤ (f rnd x n fe).1 ∧ (f rnd x n fe).1 ≤ 898641 := by
  have hm : (n - 1).toNat < 250 := by omega
  obtain ⟨h0, hu⟩ := f_loop_bound hr x (n - 1).toNat hm (fun i hi => hx i (by omega))
  refine ⟨h0, le_trans hu ?_⟩
  have : ((n - 1).toNat : ℚ) ≤ 249 := by
    have : (n - 1).toNat ≤ 249 := by omega
    exact_mod_cast this
  linarith

/-! ## The evaluation counter when tasks run one after another -/

/-- What `mds` returns does not depend on the value of the counter. -/
theorem exec_fst (rnd : ℚ → ℚ) (run : MdsRun) :
    ∀ fe : Nat, (run.exec rnd fe).1 = (run.exec rnd 0).1 := by
  induction run with
  | ret out => intro fe; rfl
  | call x n k ih =>
    intro fe
    simp only [MdsRun.exec]
    rw [ih _ ((f rnd x n fe).2), ih _ ((f rnd x n 0).2)]
    rfl

/-- An invocation advances the counter by the number of calls of `f` it makes. -/
theorem exec_snd (rnd : ℚ → ℚ) (run : MdsRun) :
    ∀ fe : Nat, fe < 2 ^ 64 → (run.exec rnd fe).2 = (fe + run.calls rnd) % 2 ^ 64 := by
  induction run with
  | ret out =>
    intro fe hfe
    simp only [MdsRun.exec, MdsRun.calls, Nat.add_zero]
    exact (Nat.mod_eq_of_lt hfe).symm
  | call x n k ih =>
    intro fe _
    simp only [MdsRun.exec, MdsRun.calls]
    have hv : (f rnd x n fe).1 = (f rnd x n 0).1 := rfl
    have hc : (f rnd x n fe).2 = (fe + 1) % 2 ^ 64 := rfl
    rw [hc, hv, ih _ _ (Nat.mod_lt _ (by norm_num))]
    omega

theorem invocation_indep (rnd : ℚ → ℚ) (mds : MdsArgs → MdsRun) (u : Uninit) (nvars trial : Int)
    (g1 g2 : Drand48) :
    invocation rnd mds u nvars trial g1 = invocation rnd mds u nvars trial g2 := by
  unfold invocation
  rw [genStart_indep rnd _ _ nvars trial g1 g2]

theorem task_funevals (rnd : ℚ → ℚ) (mds : MdsArgs → MdsRun) (u : Uninit) (nvars : Int)
    (g0 : Drand48) (sh : Shared) (trial : Int) (h : sh.funevals < 2 ^ 64) :
    (task rnd mds u nvars sh trial).funevals
      = (sh.funevals + objectiveCalls rnd mds u nvars g0 trial) % 2 ^ 64 := by
  show ((invocation rnd mds u nvars trial sh.gen).exec rnd sh.funevals).2 = _
  rw [exec_snd rnd _ _ h, invocation_indep rnd mds u nvars trial sh.gen g0]
  rfl

/-- The evaluation count in a task's result is `returnedNf`, whatever shared state it found. -/
theorem taskResult_nf (rnd : ℚ → ℚ) (mds : MdsArgs → MdsRun) (u : Uninit) (nvars : Int)
    (g0 : Drand48) (sh : Shared) (trial : Int) :
    (taskResult rnd mds u nvars sh trial).private_nf = returnedNf rnd mds u nvars g0 trial := by
  show ((invocation rnd mds u nvars trial sh.gen).exec rnd sh.funevals).1.nf = _
  rw [exec_fst, invocation_indep rnd mds u nvars trial sh.gen g0]
  rfl

/-- After the tasks of `order` have run one after another, the counter has advanced by the
total number of calls of `f`, modulo `2 ^ 64`. -/
theorem runTasks_funevals (rnd : ℚ → ℚ) (mds : MdsArgs → MdsRun) (u : Uninit) (nvars : Int)
    (g0 : Drand48) (order : List Int) :
    ∀ sh : Shared, sh.funevals < 2 ^ 64 →
      (runTasks rnd mds u nvars order sh).funevals
        = (sh.funevals + (order.map (objectiveCalls rnd mds u nvars g0)).sum) % 2 ^ 64 := by
  induction order with
  | nil =>
    intro sh h
    simp only [runTasks, List.foldl_nil, List.map_nil, List.sum_nil, Nat.add_zero]
    exact (Nat.mod_eq_of_lt h).symm
  | cons t ts ih =>
    intro sh h
    have hstep := task_funevals rnd mds u nvars g0 sh t h
    have hlt : (task rnd mds u nvars sh t).funevals < 2 ^ 64 := by
      rw [hstep]; exact Nat.mod_lt _ (by norm_num)
    have := ih (task rnd mds u nvars sh t) hlt
    simp only [runTasks, List.foldl_cons, List.map_cons, List.sum_cons] at this ⊢
    rw [this, hstep]
    omega

theorem returnedNf_stub (u : Uninit) (nvars : Int) (g0 : Drand48) (trial : Int) :
    returnedNf exactArith stubMds u nvars g0 trial = 5 := rfl

theorem objectiveCalls_stub (u : Uninit) (nvars : Int) (g0 : Drand48) (trial : Int) :
    objectiveCalls exactArith stubMds u nvars g0 trial = 0 := rfl

theorem sum_map_const {R : Type} [Semiring R] (g : Int → R) (c : R) (h : ∀ t, g t = c)
    (l : List Int) : (l.map g).sum = (l.length : R) * c := by
  induction l with
  | nil => simp
  | cons t ts ih =>
    simp only [List.map_cons, List.sum_cons, List.length_cons, Nat.cast_add, Nat.cast_one, ih, h t]
    rw [add_mul, one_mul, add_comm]

theorem trials_length (ntrials : Int) : (trials ntrials).length = ntrials.toNat := by
  simp [trials]

theorem sum_map_cast (cs : Int → Nat) (l : List Int) :
    (((l.map cs).sum : Nat) : Int) = (l.map (fun t => (cs t : Int))).sum := by
  induction l with
  | nil => rfl
  | cons t ts ih => simp only [List.map_cons, List.sum_cons, Nat.cast_add, ih]

/-! ## The tasks under a schedule -/

theorem genStep_at (rnd : ℚ → ℚ) (lo hi : Nat → ℚ) (nvars : Int) (g : Drand48) (i : Int)
    (A B : List GenTask) (tk : GenTask) :
    genStep rnd lo hi nvars { gen := g, i := i, tasks := A ++ tk :: B } A.length =
      match tk.pc with
      | .seed => { gen := srand48 tk.trial g, i := i, tasks := A ++ { tk with pc := .init } :: B }
      | .init => { gen := g, i := 0, tasks := A ++ { tk with pc := .test } :: B }
      | .test =>
        { gen := g, i := i, tasks := A ++ { tk with pc := if i < nvars then .draw else .done } :: B }
      | .draw =>
        { gen := (drand48 g).2, i := i
          tasks := A ++
            { tk with
              pc := .incr
              private_startpt := Function.update tk.private_startpt i.toNat
                (some (startCoord rnd lo hi i.toNat (drand48 g).1)) } :: B }
      | .incr => { gen := g, i := i + 1, tasks := A ++ { tk with pc := .test } :: B }
      | .done => { gen := g, i := i, tasks := A ++ tk :: B } := by
  have hget : (A ++ tk :: B).get? A.length = some tk := by
    rw [List.get?_eq_getElem?, List.getElem?_append_right (Nat.le_refl _)]
    simp
  have hset : ∀ v : GenTask, (A ++ tk :: B).set A.length v = A ++ v :: B := by
    intro v
    simp
  unfold genStep
  simp only [hget, hset]

theorem genRun_cons (rnd : ℚ → ℚ) (lo hi : Nat → ℚ) (nvars : Int) (t : Nat) (ts : List Nat)
    (s : GenState) :
    genRun rnd lo hi nvars (t :: ts) s = genRun rnd lo hi nvars ts (genStep rnd lo hi nvars s t) :=
  rfl

theorem genRun_append (rnd : ℚ → ℚ) (lo hi : Nat → ℚ) (nvars : Int) (xs ys : List Nat)
    (s : GenState) :
    genRun rnd lo hi nvars (xs ++ ys) s
      = genRun rnd lo hi nvars ys (genRun rnd lo hi nvars xs s) := by
  simp [genRun, List.foldl_append]

theorem advance_succ_left (m : Nat) (g : Drand48) :
    advance (m + 1) g = advance m (drand48 g).2 := by
  induction m with
  | zero => rfl
  | succ k ih => rw [advance_succ, ih, ← advance_succ]

/-- The loop of lines 95-97 run by one task alone from the test with `i = k`. -/
theorem loop_run (rnd : ℚ → ℚ) (lo hi : Nat → ℚ) (n : Nat) (A B : List GenTask) (trial : Int)
    (m : Nat) : ∀ (k : Nat) (g : Drand48) (pt : Nat → Option ℚ), k + m = n →
      genRun rnd lo hi n (burst A.length (3 * m + 1))
        { gen := g, i := k, tasks := A ++ { trial := trial, pc := .test, private_startpt := pt } :: B }
      = { gen := advance m g, i := n
          tasks := A ++ { trial := trial, pc := .done,
                          private_startpt := fill rnd lo hi m k g pt } :: B } := by
  induction m with
  | zero =>
    intro k g pt hk
    have hk' : k = n := by omega
    subst hk'
    show genRun rnd lo hi k [A.length] _ = _
    rw [genRun_cons, genStep_at]
    simp [genRun, fill, advance, forLoop]
  | succ m ih =>
    intro k g pt hk
    have hlt : (k : Int) < (n : Int) := by omega
    have hb : burst A.length (3 * (m + 1) + 1)
        = A.length :: A.length :: A.length :: burst A.length (3 * m + 1) := rfl
    rw [hb, genRun_cons, genStep_at]
    simp only [hlt, if_true]
    rw [genRun_cons, genStep_at]
    simp only [Int.toNat_ofNat]
    rw [genRun_cons, genStep_at]
    simp only
    have hcast : (k : Int) + 1 = ((k + 1 : Nat) : Int) := by push_cast; rfl
    rw [hcast, ih (k + 1) _ _ (by omega), advance_succ_left]
    rfl

/-- Lines 93-97 run by one task alone after its `srand48`. -/
theorem init_run (rnd : ℚ → ℚ) (lo hi : Nat → ℚ) (n : Nat) (A B : List GenTask) (trial : Int)
    (g : Drand48) (i0 : Int) (pt : Nat → Option ℚ) :
    genRun rnd lo hi n (burst A.length (3 * n + 2))
      { gen := g, i := i0, tasks := A ++ { trial := trial, pc := .init, private_startpt := pt } :: B }
    = { gen := advance n g, i := n
        tasks := A ++ finish rnd lo hi n g { trial := trial, pc := .init, private_startpt := pt }
          :: B } := by
  have hb : burst A.length (3 * n + 2) = A.length :: burst A.length (3 * n + 1) := rfl
  rw [hb, genRun_cons, genStep_at]
  exact loop_run rnd lo hi n A B trial n 0 g pt (by omega)

/-- Lines 92-97 run by one task alone. -/
theorem task_run (rnd : ℚ → ℚ) (lo hi : Nat → ℚ) (n : Nat) (A B : List GenTask) (trial : Int)
    (g : Drand48) (i0 : Int) (pt : Nat → Option ℚ) :
    genRun rnd lo hi n (burst A.length (3 * n + 3))
      { gen := g, i := i0, tasks := A ++ { trial := trial, pc := .seed, private_startpt := pt } :: B }
    = { gen := advance n (srand48 trial g), i := n
        tasks := A ++ finish rnd lo hi n (srand48 trial drand48Start)
          { trial := trial, pc := .seed, private_startpt := pt } :: B } := by
  have hb : burst A.length (3 * n + 3) = A.length :: burst A.length (3 * n + 2) := rfl
  rw [hb, genRun_cons, genStep_at]
  exact init_run rnd lo hi n A B trial (srand48 trial g) i0 pt

/-- Tasks that run lines 92-97 one after another each end with the point of their own seed. -/
theorem seq_run (rnd : ℚ → ℚ) (lo hi : Nat → ℚ) (n : Nat) (pend : List GenTask) :
    ∀ (A : List GenTask) (g : Drand48) (i0 : Int), (∀ tk ∈ pend, tk.pc = .seed) →
      (genRun rnd lo hi n
        ((List.range' A.length pend.length).flatMap (fun t => burst t (3 * n + 3)))
        { gen := g, i := i0, tasks := A ++ pend }).tasks
      = A ++ pend.map (fun tk => finish rnd lo hi n (srand48 tk.trial drand48Start) tk) := by
  induction pend with
  | nil => intro A g i0 _; rfl
  | cons tk rest ih =>
    intro A g i0 hseed
    obtain ⟨trial, pc, pt⟩ := tk
    have hpc : pc = .seed := hseed _ (List.mem_cons_self _ _)
    subst hpc
    rw [List.length_cons, List.range'_succ, List.flatMap_cons, genRun_append, task_run]
    have hA : A ++ finish rnd lo hi n (srand48 trial drand48Start)
          { trial := trial, pc := .seed, private_startpt := pt } :: rest
        = (A ++ [finish rnd lo hi n (srand48 trial drand48Start)
          { trial := trial, pc := .seed, private_startpt := pt }]) ++ rest := by
      simp
    have hlen : A.length + 1 = (A ++ [finish rnd lo hi n (srand48 trial drand48Start)
          { trial := trial, pc := .seed, private_startpt := pt }]).length := by
      simp
    rw [hA, hlen, ih _ _ _ (fun tk htk => hseed tk (List.mem_cons_of_mem _ htk))]
    simp

/-- The schedule in which the second task reseeds the generator between the first task's
`srand48` and its draws: both draw from the second task's stream. -/
theorem racy_run (rnd : ℚ → ℚ) (lo hi : Nat → ℚ) (n : Nat) (pend : List GenTask)
    (t0 t1 : Int) (g : Drand48) (i0 : Int) (p0 p1 : Nat → Option ℚ)
    (hseed : ∀ tk ∈ pend, tk.pc = .seed) :
    (genRun rnd lo hi n
      ([0, 1] ++ burst 0 (3 * n + 2) ++ burst 1 (3 * n + 2)
        ++ (List.range' 2 pend.length).flatMap (fun t => burst t (3 * n + 3)))
      { gen := g, i := i0
        tasks := { trial := t0, pc := .seed, private_startpt := p0 }
          :: { trial := t1, pc := .seed, private_startpt := p1 } :: pend }).tasks
    = finish rnd lo hi n (srand48 t1 drand48Start) { trial := t0, pc := .seed, private_startpt := p0 }
      :: finish rnd lo hi n (advance n (srand48 t1 drand48Start))
          { trial := t1, pc := .seed, private_startpt := p1 }
      :: pend.map (fun tk => finish rnd lo hi n (srand48 tk.trial drand48Start) tk) := by
  rw [genRun_append, genRun_append, genRun_append]
  have h0 := genStep_at rnd lo hi n g i0 []
    ({ trial := t1, pc := .seed, private_startpt := p1 } :: pend)
    { trial := t0, pc := .seed, private_startpt := p0 }
  have h1 := genStep_at rnd lo hi n (srand48 t0 g) i0
    [{ trial := t0, pc := .init, private_startpt := p0 }] pend
    { trial := t1, pc := .seed, private_startpt := p1 }
  have h2 := init_run rnd lo hi n []
    ({ trial := t1, pc := .init, private_startpt := p1 } :: pend) t0
    (srand48 t1 (srand48 t0 g)) i0 p0
  have h3 := init_run rnd lo hi n
    [finish rnd lo hi n (srand48 t1 drand48Start)
      { trial := t0, pc := .init, private_startpt := p0 }] pend t1
    (advance n (srand48 t1 (srand48 t0 g))) n p1
  have h4 := seq_run rnd lo hi n pend
    [finish rnd lo hi n (srand48 t1 drand48Start)
      { trial := t0, pc := .init, private_startpt := p0 },
     finish rnd lo hi n (advance n (srand48 t1 drand48Start))
      { trial := t1, pc := .init, private_startpt := p1 }]
    (advance n (advance n (srand48 t1 (srand48 t0 g)))) n hseed
  simp only [List.nil_append, List.length_nil, List.singleton_append, List.length_singleton,
    List.cons_append, List.length_cons] at h0 h1 h2 h3 h4
  have hrun2 : genRun rnd lo hi n [0, 1]
      { gen := g, i := i0
        tasks := { trial := t0, pc := .seed, private_startpt := p0 }
          :: { trial := t1, pc := .seed, private_startpt := p1 } :: pend }
      = { gen := srand48 t1 (srand48 t0 g), i := i0
          tasks := { trial := t0, pc := .init, private_startpt := p0 }
            :: { trial := t1, pc := .init, private_startpt := p1 } :: pend } := by
    rw [genRun_cons, h0, genRun_cons, h1]
    rfl
  rw [hrun2, h2]
  exact (congrArg (fun s => (genRun rnd lo hi n
      ((List.range' 2 pend.length).flatMap (fun t => burst t (3 * n + 3))) s).tasks) h3).trans h4

/-- The entries written by `fill` in closed form. -/
theorem fill_apply (rnd : ℚ → ℚ) (lo hi : Nat → ℚ) (m : Nat) :
    ∀ (k : Nat) (g : Drand48) (pt : Nat → Option ℚ) (j : Nat),
      fill rnd lo hi m k g pt j
        = if k ≤ j ∧ j < k + m then some (startCoord rnd lo hi j (drand48 (advance (j - k) g)).1)
          else pt j := by
  induction m with
  | zero =>
    intro k g pt j
    have : ¬ (k ≤ j ∧ j < k + 0) := by omega
    rw [if_neg this]
    rfl
  | succ m ih =>
    intro k g pt j
    rw [fill, ih]
    by_cases hjk : j = k
    · subst hjk
      have h1 : ¬ (j + 1 ≤ j ∧ j < j + 1 + m) := by omega
      have h2 : j ≤ j ∧ j < j + (m + 1) := by omega
      simp [h1, h2, advance, forLoop]
    · by_cases hin : k + 1 ≤ j ∧ j < k + 1 + m
      · have h2 : k ≤ j ∧ j < k + (m + 1) := by omega
        have h3 : j - k = (j - (k + 1)) + 1 := by omega
        rw [if_pos hin, if_pos h2, h3, advance_succ_left]
      · have h2 : ¬ (k ≤ j ∧ j < k + (m + 1)) := by omega
        rw [if_neg hin, if_neg h2, Function.update_noteq hjk]

/-- A task that ran alone holds the coordinates that `genStart` computes. -/
theorem finish_points (rnd : ℚ → ℚ) (lo hi : Nat → ℚ) (n : Nat) (trial : Int) (g : Drand48)
    (pt0 : Nat → ℚ) (pt : Nat → Option ℚ) :
    (List.range n).map
      (finish rnd lo hi n (srand48 trial drand48Start)
        { trial := trial, pc := .seed, private_startpt := pt }).private_startpt
    = (List.range n).map (fun i => some ((genStart rnd lo hi n trial g pt0).1 i)) := by
  apply List.map_congr_left
  intro i hi
  have hlt : i < n := List.mem_range.mp hi
  have h1 : 0 ≤ i ∧ i < 0 + n := by omega
  rw [genStart_eq]
  simp only [finish, fill_apply, h1, and_self, if_true, Int.toNat_ofNat, hlt, Nat.sub_zero]
  rfl

/-- For every number of trials and of variables, the tasks run one after another all
complete and hold the starting points each generates in isolation. -/
theorem seq_points (rnd : ℚ → ℚ) (lo hi : Nat → ℚ) (n ntrials : Nat) (g0 : Drand48) (i0 : Int)
    (pt0 : Int → Nat → ℚ) :
    genAllDone (genRun rnd lo hi n (seqSchedule ntrials n) (genInit ntrials g0 i0)) = true ∧
    startPoints n (genRun rnd lo hi n (seqSchedule ntrials n) (genInit ntrials g0 i0))
      = (trials ntrials).map (fun trial => (List.range n).map (fun i =>
          some ((genStart rnd lo hi n trial g0 (pt0 trial)).1 i))) := by
  have hlen : ((trials ntrials).map (fun trial : Int =>
      ({ trial := trial, pc := .seed, private_startpt := fun _ => none } : GenTask))).length
      = ntrials := by
    simp [trials]
  have h := seq_run rnd lo hi n ((trials ntrials).map (fun trial : Int =>
      ({ trial := trial, pc := .seed, private_startpt := fun _ => none } : GenTask)))
      [] g0 i0 (by
        intro tk htk
        obtain ⟨trial, _, rfl⟩ := List.mem_map.mp htk
        rfl)
  rw [hlen] at h
  simp only [List.nil_append, List.length_nil, ← List.range_eq_range'] at h
  have htasks : (genRun rnd lo hi n (seqSchedule ntrials n) (genInit ntrials g0 i0)).tasks
      = ((trials ntrials).map (fun trial : Int =>
          ({ trial := trial, pc := .seed, private_startpt := fun _ => none } : GenTask))).map
          (fun tk => finish rnd lo hi n (srand48 tk.trial drand48Start) tk) := h
  constructor
  · simp [genAllDone, htasks, finish]
  · rw [startPoints, htasks, List.map_map, List.map_map]
    apply List.map_congr_left
    intro trial _
    exact finish_points rnd lo hi n trial g0 (pt0 trial) _

theorem racy_tasks :
    (genRun exactArith (lower zeroMem.lower0) (upper zeroMem.upper0) 4 (racySchedule 64 4)
      (genInit 64 drand48Start 250)).tasks = racyTasks :=
  racy_run exactArith (lower zeroMem.lower0) (upper zeroMem.upper0) 4 laterTasks 0 1
    drand48Start 250 (fun _ => none) (fun _ => none) (by
      intro tk htk
      obtain ⟨trial, _, rfl⟩ := List.mem_map.mp htk
      rfl)

theorem racy_misses_trial0 :
    (List.range 4).map (fun i => some
        ((genStart exactArith (lower zeroMem.lower0) (upper zeroMem.upper0) 4 0 drand48Start
          (zeroMem.startpt0 0)).1 i))
      ∉ racyTasks.map (fun tk => (List.range 4).map tk.private_startpt) := by
  decide!

/-- A step of any task leaves the record of a task that is done as it is. -/
theorem genStep_get_done (rnd : ℚ → ℚ) (lo hi : Nat → ℚ) (nvars : Int) (s : GenState)
    (t t' : Nat) (tk : GenTask) (h : s.tasks.get? t = some tk) (hd : tk.pc = .done) :
    (genStep rnd lo hi nvars s t').tasks.get? t = some tk := by
  unfold genStep
  cases h' : s.tasks.get? t' with
  | none => exact h
  | some tk' =>
    by_cases htt : t' = t
    · subst htt
      rw [h] at h'
      cases h'
      simp only [hd]
      exact h
    · simp only
      cases tk'.pc <;> simp only [List.get?_eq_getElem?, List.getElem?_set_ne htt] <;>
        simpa using h

/-- A task that is done keeps its record through any schedule. -/
theorem genRun_get_done (rnd : ℚ → ℚ) (lo hi : Nat → ℚ) (nvars : Int) (sched : List Nat) :
    ∀ (s : GenState) (t : Nat) (tk : GenTask), s.tasks.get? t = some tk → tk.pc = .done →
      (genRun rnd lo hi nvars sched s).tasks.get? t = some tk := by
  induction sched with
  | nil => intro s t tk h _; exact h
  | cons t' ts ih =>
    intro s t tk h hd
    exact ih _ t tk (genStep_get_done rnd lo hi nvars s t t' tk h hd) hd

theorem skip_prefix :
    ((genRun exactArith (lower zeroMem.lower0) (upper zeroMem.upper0) 4 skipSchedule
        (genInit 64 drand48Start 250)).tasks.get? 0).map
      (fun tk => (tk.pc, tk.private_startpt 1)) = some (.done, none) := by
  decide!

theorem skip_any (rest : List Nat) :
    ∃ tk : GenTask,
      (genRun exactArith (lower zeroMem.lower0) (upper zeroMem.upper0) 4 (skipSchedule ++ rest)
        (genInit 64 drand48Start 250)).tasks.get? 0 = some tk ∧
      tk.pc = .done ∧ tk.private_startpt 1 = none := by
  have h := skip_prefix
  cases hg : (genRun exactArith (lower zeroMem.lower0) (upper zeroMem.upper0) 4 skipSchedule
      (genInit 64 drand48Start 250)).tasks.get? 0 with
  | none => rw [hg] at h; cases h
  | some tk =>
    rw [hg] at h
    simp only [Option.map_some', Option.some.injEq, Prod.mk.injEq] at h
    refine ⟨tk, ?_, h.1, h.2⟩
    rw [genRun_append]
    exact genRun_get_done _ _ _ _ rest _ 0 tk hg h.1

/-- A step of one of the first two tasks leaves the later tasks as they are. -/
theorem genStep_drop_two (rnd : ℚ → ℚ) (lo hi : Nat → ℚ) (nvars : Int) (s : GenState)
    (t : Nat) (ht : t < 2) :
    (genStep rnd lo hi nvars s t).tasks.drop 2 = s.tasks.drop 2 := by
  unfold genStep
  cases s.tasks.get? t with
  | none => rfl
  | some tk =>
    simp only
    cases tk.pc <;> simp only [List.drop_set_of_lt _ _ ht]

theorem genRun_drop_two (rnd : ℚ → ℚ) (lo hi : Nat → ℚ) (nvars : Int) (sched : List Nat) :
    ∀ s : GenState, (∀ t ∈ sched, t < 2) →
      (genRun rnd lo hi nvars sched s).tasks.drop 2 = s.tasks.drop 2 := by
  induction sched with
  | nil => intro s _; rfl
  | cons t ts ih =>
    intro s h
    rw [genRun_cons, ih _ (fun t' ht' => h t' (List.mem_cons_of_mem _ ht'))]
    exact genStep_drop_two rnd lo hi nvars s t (h t (List.mem_cons_self _ _))

theorem list_eq_of_two {α : Type} (l : List α) (a b : α) (h0 : l.get? 0 = some a)
    (h1 : l.get? 1 = some b) : l = a :: b :: l.drop 2 := by
  match l, h0, h1 with
  | x :: y :: rest, h0, h1 =>
    simp at h0 h1
    subst h0; subst h1
    rfl

theorem skip_prefix_both :
    ((genRun exactArith (lower zeroMem.lower0) (upper zeroMem.upper0) 4 skipSchedule
        (genInit 64 drand48Start 250)).tasks.get? 0).map (fun tk => tk.pc) = some .done ∧
    ((genRun exactArith (lower zeroMem.lower0) (upper zeroMem.upper0) 4 skipSchedule
        (genInit 64 drand48Start 250)).tasks.get? 1).map (fun tk => tk.pc) = some .done := by
  decide!

theorem skip_completes :
    genAllDone (genRun exactArith (lower zeroMem.lower0) (upper zeroMem.upper0) 4 skipThenRest
      (genInit 64 drand48Start 250)) = true := by
  obtain ⟨h0, h1⟩ := skip_prefix_both
  have hdrop := genRun_drop_two exactArith (lower zeroMem.lower0) (upper zeroMem.upper0) 4
    skipSchedule (genInit 64 drand48Start 250) (by decide)
  have hlater : (genInit 64 drand48Start 250).tasks.drop 2 = laterTasks := rfl
  rw [hlater] at hdrop
  generalize hs : genRun exactArith (lower zeroMem.lower0) (upper zeroMem.upper0) 4
    skipSchedule (genInit 64 drand48Start 250) = s1 at h0 h1 hdrop
  obtain ⟨g1, i1, ts⟩ := s1
  simp only at h0 h1 hdrop
  cases ha : ts.get? 0 with
  | none => rw [ha] at h0; cases h0
  | some a =>
    cases hb : ts.get? 1 with
    | none => rw [hb] at h1; cases h1
    | some b =>
      rw [ha] at h0
      rw [hb] at h1
      simp only [Option.map_some', Option.some.injEq] at h0 h1
      have hl := list_eq_of_two ts a b ha hb
      rw [hdrop] at hl
      subst hl
      have hfin : (genRun exactArith (lower zeroMem.lower0) (upper zeroMem.upper0) 4
          ((List.range' 2 62).flatMap fun t => burst t 15)
          { gen := g1, i := i1, tasks := a :: b :: laterTasks }).tasks
          = a :: b :: laterTasks.map (fun tk =>
              finish exactArith (lower zeroMem.lower0) (upper zeroMem.upper0) 4
                (srand48 tk.trial drand48Start) tk) :=
        seq_run exactArith (lower zeroMem.lower0) (upper zeroMem.upper0) 4 laterTasks
          [a, b] g1 i1 (by
            intro tk htk
            obtain ⟨trial, _, rfl⟩ := List.mem_map.mp htk
            rfl)
      rw [skipThenRest, genRun_append, hs]
      simp [genAllDone, hfin, h0, h1, finish]

/-! ## The counter under a schedule -/

theorem incStep_at (fe : Nat) (A B : List IncPc) (pc : IncPc) :
    incStep { funevals := fe, pcs := A ++ pc :: B } A.length =
      match pc with
      | .load => { funevals := fe, pcs := A ++ .store fe :: B }
      | .store r => { funevals := (r + 1) % 2 ^ 64, pcs := A ++ .done :: B }
      | .done => { funevals := fe, pcs := A ++ .done :: B } := by
  have hget : (A ++ pc :: B).get? A.length = some pc := by
    rw [List.get?_eq_getElem?, List.getElem?_append_right (Nat.le_refl _)]
    simp
  have hset : ∀ v : IncPc, (A ++ pc :: B).set A.length v = A ++ v :: B := by
    intro v
    simp
  unfold incStep
  simp only [hget, hset]
  cases pc <;> rfl

theorem incRun_append (xs ys : List Nat) (s : CounterState) :
    incRun (xs ++ ys) s = incRun ys (incRun xs s) := by
  simp [incRun, List.foldl_append]

/-- The tasks read the counter one after another: each keeps the same value. -/
theorem all_read (fe : Nat) (m : Nat) : ∀ A : List IncPc,
    incRun (List.range' A.length m) { funevals := fe, pcs := A ++ List.replicate m .load }
      = { funevals := fe, pcs := A ++ List.replicate m (.store fe) } := by
  induction m with
  | zero => intro A; rfl
  | succ m ih =>
    intro A
    rw [List.range'_succ, List.replicate_succ]
    show incRun (List.range' (A.length + 1) m) (incStep _ A.length) = _
    rw [incStep_at]
    have h := ih (A ++ [.store fe])
    simp only [List.length_append, List.length_singleton, List.append_assoc,
      List.singleton_append] at h
    rw [h, List.replicate_succ]

/-- The tasks then write back one after another: each writes the value read plus one. -/
theorem all_write (r : Nat) (m : Nat) : ∀ (A : List IncPc) (fe : Nat),
    incRun (List.range' A.length (m + 1))
        { funevals := fe, pcs := A ++ List.replicate (m + 1) (.store r) }
      = { funevals := (r + 1) % 2 ^ 64, pcs := A ++ List.replicate (m + 1) .done } := by
  induction m with
  | zero =>
    intro A fe
    show incStep _ A.length = _
    rw [List.replicate_succ, incStep_at]
    rfl
  | succ m ih =>
    intro A fe
    rw [List.range'_succ, List.replicate_succ]
    show incRun (List.range' (A.length + 1) (m + 1)) (incStep _ A.length) = _
    rw [incStep_at]
    have h := ih (A ++ [.done]) ((r + 1) % 2 ^ 64)
    simp only [List.length_append, List.length_singleton, List.append_assoc,
      List.singleton_append] at h
    rw [h]
    rfl

/-- The tasks call `f` one after another: the counter advances by one per task. -/
theorem all_serial (m : Nat) : ∀ (A : List IncPc) (fe : Nat), fe + m < 2 ^ 64 →
    incRun ((List.range' A.length m).flatMap (fun t => [t, t]))
        { funevals := fe, pcs := A ++ List.replicate m .load }
      = { funevals := fe + m, pcs := A ++ List.replicate m .done } := by
  induction m with
  | zero => intro A fe _; rfl
  | succ m ih =>
    intro A fe hlt
    rw [List.range'_succ, List.replicate_succ, List.flatMap_cons]
    show incRun _ (incStep (incStep _ A.length) A.length) = _
    rw [incStep_at, incStep_at]
    have h := ih (A ++ [.done]) (fe + 1) (by omega)
    simp only [List.length_append, List.length_singleton, List.append_assoc,
      List.singleton_append] at h
    have hmod : (fe + 1) % 2 ^ 64 = fe + 1 := Nat.mod_eq_of_lt (by omega)
    simp only [hmod]
    show incRun ((List.range' (A.length + 1) m).flatMap fun t => [t, t]) _ = _
    rw [h, Nat.add_assoc, Nat.add_comm 1 m]
    rfl

theorem serial_counts (N : Nat) (hN : N < 2 ^ 64) :
    incRun (oneByOne N) (incInit N) = { funevals := N, pcs := List.replicate N .done } := by
  have h := all_serial N [] 0 (by omega)
  simp only [List.length_nil, List.nil_append, ← List.range_eq_range', Nat.zero_add] at h
  exact h

theorem lost_updates_any (N : Nat) :
    incAllDone (incRun (readThenWrite (N + 1)) (incInit (N + 1))) = true ∧
    (incRun (readThenWrite (N + 1)) (incInit (N + 1))).funevals = 1 := by
  have h1 := all_read 0 (N + 1) []
  have h2 := all_write 0 N [] 0
  simp only [List.length_nil, List.nil_append, ← List.range_eq_range'] at h1 h2
  have h : incRun (readThenWrite (N + 1)) (incInit (N + 1))
      = { funevals := 1, pcs := List.replicate (N + 1) .done } := by
    rw [readThenWrite, incRun_append]
    show incRun _ (incRun _ { funevals := 0, pcs := List.replicate (N + 1) .load }) = _
    rw [h1, h2]
    rfl
  rw [h]
  simp [incAllDone]

/-! ## Properties of the reducer -/

/-- Run while no other task writes `i`, the critical-section body takes the candidate's trial
index, iteration count, evaluation count, value and first `nvars` ending-point coordinates when
`private_fx < best_fx`; whatever the other tasks write, it leaves the whole state as it was
when the comparison is false, in particular when `private_fx >= best_fx`. -/
theorem keepBest_alone (nvars : Int) (s : GlobalBestState) (c : TrialResult) :
    (Double.lt c.private_fx s.best_fx = true →
      (keepBest nvars [] s c).best_trial = c.trial ∧
      (keepBest nvars [] s c).best_nt = c.private_nt ∧
      (keepBest nvars [] s c).best_nf = c.private_nf ∧
      (keepBest nvars [] s c).best_fx = c.private_fx ∧
      (∀ i : Nat, (i : Int) < nvars → (keepBest nvars [] s c).best_pt i = c.private_endpt i) ∧
      (∀ i : Nat, nvars ≤ (i : Int) → (keepBest nvars [] s c).best_pt i = s.best_pt i)) ∧
    (∀ ws, Double.lt c.private_fx s.best_fx = false → keepBest nvars ws s c = s) ∧
    (∀ ws, Double.ge c.private_fx s.best_fx = true → keepBest nvars ws s c = s) := by
  refine ⟨fun h => ?_, fun ws h => keepBest_of_not_lt h,
    fun ws h => keepBest_of_not_lt (dlt_of_ge h)⟩
  rw [keepBest_of_lt h]
  refine ⟨rfl, rfl, rfl, rfl, fun i hi => ?_, fun i hi => ?_⟩
  · show copyLoop nvars c.private_endpt [] 0 s.best_pt i = _
    rw [copyLoop_alone, if_pos (by omega)]
  · show copyLoop nvars c.private_endpt [] 0 s.best_pt i = _
    rw [copyLoop_alone, if_neg (by omega)]

/-- C1 fails on the code: the copy loop of lines 111-112 runs on the shared index `i`.  With
the program's `nvars = 4`, a task that finds `best_fx = 1e10` and brings the value `5` and the
ending point `(10, 11, 12, 13)` stores its trial index, counts and value and copies
`best_pt[0]`; another task then runs its lines 92-97, which leave `i = 4`; the `i++` of the
copy loop makes it `5` and the loop ends: `best_pt[1..3]` keep their old contents.  Run alone,
the body does replace all of them (`keepBest_alone`). -/
theorem keepBest_copy_cut_short :
    (∀ (g : Drand48) (i0 : Int),
      (genRun exactArith (lower zeroMem.lower0) (upper zeroMem.upper0) 4 (burst 1 15)
        (genInit 64 g i0)).i = 4) ∧
    Double.lt cutResult.private_fx (initBest priorPt).best_fx = true ∧
    (keepBest 4 cutWrites (initBest priorPt) cutResult).best_trial = 7 ∧
    (keepBest 4 cutWrites (initBest priorPt) cutResult).best_nt = 10 ∧
    (keepBest 4 cutWrites (initBest priorPt) cutResult).best_nf = 50 ∧
    (keepBest 4 cutWrites (initBest priorPt) cutResult).best_fx = .fin 5 ∧
    (keepBest 4 cutWrites (initBest priorPt) cutResult).best_pt 0 = .fin 10 ∧
    (keepBest 4 cutWrites (initBest priorPt) cutResult).best_pt 1 = .fin (-777) ∧
    (keepBest 4 cutWrites (initBest priorPt) cutResult).best_pt 2 = .fin (-777) ∧
    (keepBest 4 cutWrites (initBest priorPt) cutResult).best_pt 3 = .fin (-777) ∧
    cutResult.private_endpt 1 = .fin 11 ∧
    (keepBest 4 [] (initBest priorPt) cutResult).best_pt 1 = .fin 11 := by
  refine ⟨fun g i0 => ?_, by decide!, by decide!, by decide!, by decide!, by decide!,
    by decide!, by decide!, by decide!, by decide!, by decide!, by decide!⟩
  have h := task_run exactArith (lower zeroMem.lower0) (upper zeroMem.upper0) 4
    [{ trial := 0, pc := .seed, private_startpt := fun _ => none }] laterTasks 1 g i0
    (fun _ => none)
  exact congrArg GenState.i h

/-- C7: a candidate whose value is NaN fails the comparison `private_fx < best_fx` and leaves
every field of the state unchanged, whatever the other tasks write to `i` meanwhile; the
reducer has no separate case for it. -/
theorem keepBest_nan_discarded (nvars : Int) (ws : List IndexWrites) (s : GlobalBestState)
    (c : TrialResult) (h : c.private_fx = .nan) :
    Double.lt c.private_fx s.best_fx = false ∧ keepBest nvars ws s c = s := by
  have hlt : Double.lt c.private_fx s.best_fx = false := by rw [h]; exact dlt_nan_left _
  exact ⟨hlt, keepBest_of_not_lt hlt⟩

/-- C7 at a concrete input: a NaN result offered to the initial state while another task
writes `i`. -/
theorem keepBest_nan_discarded_witness :
    Double.lt (sampleResult 3 .nan).private_fx (initBest (fun _ => .fin 0)).best_fx = false ∧
    keepBest 4 cutWrites (initBest (fun _ => .fin 0)) (sampleResult 3 .nan)
      = initBest (fun _ => .fin 0) :=
  keepBest_nan_discarded 4 cutWrites (initBest (fun _ => .fin 0)) (sampleResult 3 .nan) rfl

/-- C2 as stated fails: fed the single value `2e10`, the reducer started from the initial
state ends with `best_fx = 1e10`, which is not a value of the sequence. -/
theorem reduce_min_counterexample :
    (reduce 4 (initBest (fun _ => .fin 0)) [sampleArrival 0 (.fin 20000000000)]).best_fx
        = .fin 10000000000 ∧
    ¬ IsMinOf (reduce 4 (initBest (fun _ => .fin 0)) [sampleArrival 0 (.fin 20000000000)]).best_fx
        ([sampleArrival 0 (.fin 20000000000)].map (fun r => r.result.private_fx)) := by
  have h : (reduce 4 (initBest (fun _ => .fin 0)) [sampleArrival 0 (.fin 20000000000)]).best_fx
      = .fin 10000000000 := by
    rw [reduce_stays 4 _ _ (fun q hq => by
      simp only [List.mem_singleton] at hq
      subst hq
      norm_num [sampleArrival, sampleResult, initBest, Double.lt])]
    rfl
  refine ⟨h, fun hmin => ?_⟩
  have hmem := hmin.2.1
  rw [h] at hmem
  simp [sampleArrival, sampleResult] at hmem

/-- C2, amended: started from the initial state and fed any sequence of results, the reducer
ends with `best_fx` equal to the minimum of `1e10` and the values of the sequence; when some
value of the sequence is at most `1e10`, that is the minimum value across the sequence; and
the final `best_fx` is the same for every arrival order of the same results.  This holds
whatever the other tasks write to `i` while the results are processed. -/
theorem reduce_best_fx_min (nvars : Int) (pt0 : Nat → Double) (rs : List Arrival) :
    IsMinOf (reduce nvars (initBest pt0) rs).best_fx
      (.fin 10000000000 :: rs.map (fun r => r.result.private_fx)) ∧
    ((∃ r ∈ rs, Double.le r.result.private_fx (.fin 10000000000) = true) →
      IsMinOf (reduce nvars (initBest pt0) rs).best_fx (rs.map (fun r => r.result.private_fx))) ∧
    (∀ rs' : List Arrival, rs'.Perm rs →
      (reduce nvars (initBest pt0) rs').best_fx = (reduce nvars (initBest pt0) rs).best_fx) := by
  have hmin := reduce_isMinOf nvars pt0 rs
  refine ⟨hmin, ?_, fun rs' hperm => ?_⟩
  · rintro ⟨r, hr, hle⟩
    obtain ⟨h1, h2, h4⟩ := hmin
    refine ⟨h1, ?_, fun w hw => h4 w (List.mem_cons_of_mem _ hw)⟩
    simp only [List.mem_cons] at h2
    rcases h2 with h2 | h2
    · have hr4 := h4 r.result.private_fx (List.mem_cons_of_mem _ (List.mem_map_of_mem _ hr))
      rw [h2] at hr4 ⊢
      rw [← deq_of_le_of_not_lt hle hr4]
      exact List.mem_map_of_mem _ hr
    · exact h2
  · exact isMinOf_unique
      (isMinOf_perm ((hperm.map (fun r => r.result.private_fx)).cons _) (reduce_isMinOf nvars pt0 rs'))
      hmin

/-- C3 as stated fails: of two results that both have the minimum value `2e10`, the first
processed is trial 3, yet the reducer started from the initial state stores no trial. -/
theorem reduce_tie_counterexample :
    (∀ w ∈ [sampleArrival 3 (.fin 20000000000), sampleArrival 5 (.fin 20000000000)],
      Double.lt w.result.private_fx (sampleArrival 3 (.fin 20000000000)).result.private_fx = false) ∧
    (reduce 4 (initBest (fun _ => .fin 0))
      [sampleArrival 3 (.fin 20000000000), sampleArrival 5 (.fin 20000000000)]).best_trial = -1 ∧
    (reduce 4 (initBest (fun _ => .fin 0))
      [sampleArrival 3 (.fin 20000000000), sampleArrival 5 (.fin 20000000000)]).best_trial
        ≠ (sampleArrival 3 (.fin 20000000000)).result.trial := by
  have h : (reduce 4 (initBest (fun _ => .fin 0))
      [sampleArrival 3 (.fin 20000000000), sampleArrival 5 (.fin 20000000000)]).best_trial = -1 := by
    rw [reduce_stays 4 _ _ (fun q hq => by
      simp only [List.mem_cons, List.mem_singleton, List.not_mem_nil, or_false] at hq
      rcases hq with hq | hq <;> subst hq <;> norm_num [sampleArrival, sampleResult, initBest, Double.lt])]
    rfl
  refine ⟨?_, h, ?_⟩
  · intro w hw
    simp only [List.mem_cons, List.mem_singleton, List.not_mem_nil, or_false] at hw
    rcases hw with hw | hw <;> subst hw <;> simp [sampleArrival, sampleResult, Double.lt]
  · rw [h]; simp [sampleArrival, sampleResult]

/-- C3, amended: for every sequence of results processed from the initial state whose minimum
value is below `1e10`, and whatever the other tasks write to `i` meanwhile, the stored
`best_fx`, `best_trial`, `best_nt` and `best_nf` are those of the first-processed result with
that value, and nothing processed after it changes the state; in particular, for 8 trials that
all return value 0, the final `best_fx` is 0 and `best_trial` is the index of the first trial
processed.  Nothing is said of `best_pt`. -/
theorem reduce_tie_first (nvars : Int) (pt0 : Nat → Double) :
    (∀ (pre post : List Arrival) (r : Arrival),
      Double.lt r.result.private_fx (.fin 10000000000) = true →
      (∀ w ∈ pre ++ r :: post, Double.lt w.result.private_fx r.result.private_fx = false) →
      (∀ p ∈ pre, p.result.private_fx ≠ r.result.private_fx) →
        (reduce nvars (initBest pt0) (pre ++ r :: post)).best_fx = r.result.private_fx ∧
        (reduce nvars (initBest pt0) (pre ++ r :: post)).best_trial = r.result.trial ∧
        (reduce nvars (initBest pt0) (pre ++ r :: post)).best_nt = r.result.private_nt ∧
        (reduce nvars (initBest pt0) (pre ++ r :: post)).best_nf = r.result.private_nf ∧
        reduce nvars (initBest pt0) (pre ++ r :: post)
          = reduce nvars (initBest pt0) (pre ++ [r])) ∧
    (∀ (r : Arrival) (post : List Arrival),
      (r :: post).length = 8 →
      (∀ w ∈ r :: post, w.result.private_fx = .fin 0) →
        (reduce nvars (initBest pt0) (r :: post)).best_fx = .fin 0 ∧
        (reduce nvars (initBest pt0) (r :: post)).best_trial = r.result.trial) := by
  have key : ∀ (pre post : List Arrival) (r : Arrival),
      Double.lt r.result.private_fx (.fin 10000000000) = true →
      (∀ w ∈ pre ++ r :: post, Double.lt w.result.private_fx r.result.private_fx = false) →
      (∀ p ∈ pre, p.result.private_fx ≠ r.result.private_fx) →
        (reduce nvars (initBest pt0) (pre ++ r :: post)).best_fx = r.result.private_fx ∧
        (reduce nvars (initBest pt0) (pre ++ r :: post)).best_trial = r.result.trial ∧
        (reduce nvars (initBest pt0) (pre ++ r :: post)).best_nt = r.result.private_nt ∧
        (reduce nvars (initBest pt0) (pre ++ r :: post)).best_nf = r.result.private_nf ∧
        reduce nvars (initBest pt0) (pre ++ r :: post)
          = reduce nvars (initBest pt0) (pre ++ [r]) := by
    intro pre post r hlt hmin hfirst
    obtain ⟨heq, habove⟩ := reduce_first_min nvars (initBest pt0) pre post r hlt hmin hfirst
    have hone : reduce nvars (initBest pt0) (pre ++ [r])
        = keepBest nvars r.writes (reduce nvars (initBest pt0) pre) r.result := by
      rw [reduce_append, reduce_cons, reduce_nil]
    rw [heq, hone, keepBest_of_lt habove]
    exact ⟨rfl, rfl, rfl, rfl, rfl⟩
  refine ⟨key, fun r post _ hall => ?_⟩
  have hr : r.result.private_fx = .fin 0 := hall r (List.mem_cons_self _ _)
  have h := key [] post r (by rw [hr]; simp [Double.lt])
    (fun w hw => by
      rw [hall w (by simpa using hw), hr]; exact dlt_irrefl _)
    (fun p hp => by simp at hp)
  simp only [List.nil_append] at h
  exact ⟨by rw [h.1, hr], h.2.1⟩

/-- C3 at a concrete input: the minimum `0` arrives second and fourth; trial 6, the first of
the two, is stored. -/
theorem reduce_tie_first_witness :
    (reduce 4 (initBest (fun _ => .fin 0))
      ([sampleArrival 2 (.fin 5)] ++ sampleArrival 6 (.fin 0) ::
        [sampleArrival 1 (.fin 3), sampleArrival 4 (.fin 0)])).best_trial = 6 := by
  have h := (reduce_tie_first 4 (fun _ => .fin 0)).1 [sampleArrival 2 (.fin 5)]
    [sampleArrival 1 (.fin 3), sampleArrival 4 (.fin 0)] (sampleArrival 6 (.fin 0))
    (by simp [sampleArrival, sampleResult, Double.lt])
    (by
      intro w hw
      simp only [List.singleton_append, List.mem_cons, List.mem_singleton, List.not_mem_nil,
        or_false] at hw
      rcases hw with hw | hw | hw | hw <;> subst hw <;> simp [sampleArrival, sampleResult, Double.lt])
    (by
      intro p hp
      simp only [List.mem_singleton] at hp
      subst hp
      simp [sampleArrival, sampleResult])
  exact h.2.1

/-! ## Properties of the starting points and of the objective -/

/-- C4 fails on the code: the loop of lines 95-97 runs on the shared index `i`.  With the
program's 64 trials and 4 variables, in the schedule in which task 1 advances `i` between task
0's first draw and its `i++` and the other tasks then run one after another, every task
completes, and task 0 has left its loop without writing `private_startpt[1]`: the entry holds
whatever the array held before, for instance `1000`, which is not in `[lower[1], upper[1])`.
This holds however the schedule goes on after task 0 has left its loop. -/
theorem startpt_left_unwritten :
    genAllDone (genRun exactArith (lower zeroMem.lower0) (upper zeroMem.upper0) 4 skipThenRest
      (genInit 64 drand48Start 250)) = true ∧
    ∀ rest : List Nat, ∃ tk : GenTask,
      (genRun exactArith (lower zeroMem.lower0) (upper zeroMem.upper0) 4 (skipSchedule ++ rest)
        (genInit 64 drand48Start 250)).tasks.get? 0 = some tk ∧
      tk.pc = .done ∧
      (∀ prior : Nat → ℚ, arrayValue prior tk.private_startpt 1 = prior 1) ∧
      ¬ (lower zeroMem.lower0 1 ≤ arrayValue (fun _ => 1000) tk.private_startpt 1 ∧
          arrayValue (fun _ => 1000) tk.private_startpt 1 < upper zeroMem.upper0 1) := by
  refine ⟨skip_completes, fun rest => ?_⟩
  obtain ⟨tk, hget, hdone, hnone⟩ := skip_any rest
  have hval : ∀ prior : Nat → ℚ, arrayValue prior tk.private_startpt 1 = prior 1 := by
    intro prior
    simp [arrayValue, hnone]
  refine ⟨tk, hget, hdone, hval, ?_⟩
  rw [hval, upper_eq zeroMem.upper0 1 (by decide)]
  norm_num

/-- C10: the initial state has `best_fx = 1e10` and `best_trial = -1`; for `1 <= n <= MAXVARS`
and a point with every coordinate in `[-2, 2]` the objective value is below `1e10` (it is at most
`898641`), so a first result carrying such a value replaces the initial state, whatever the
other tasks write to `i` meanwhile. -/
theorem f_below_sentinel (rnd : ℚ → ℚ) (hr : IsRounding rnd) (x : Nat → ℚ) (n : Int)
    (h1 : 1 ≤ n) (hn : n ≤ (MAXVARS : Int))
    (hx : ∀ i : Nat, (i : Int) < n → -2 ≤ x i ∧ x i ≤ 2)
    (fe : Nat) (nvars : Int) (ws : List IndexWrites) (pt0 : Nat → Double) (c : TrialResult)
    (hc : c.private_fx = .fin (f rnd x n fe).1) :
    (initBest pt0).best_fx = .fin 10000000000 ∧
    (initBest pt0).best_trial = -1 ∧
    (f rnd x n fe).1 < 10000000000 ∧
    Double.lt c.private_fx (initBest pt0).best_fx = true ∧
    (keepBest nvars ws (initBest pt0) c).best_trial = c.trial ∧
    (keepBest nvars ws (initBest pt0) c).best_fx = c.private_fx := by
  have hb := f_bound hr x n h1 (by simpa [MAXVARS] using hn) hx fe
  have hlt : (f rnd x n fe).1 < 10000000000 := lt_of_le_of_lt hb.2 (by norm_num)
  have hd : Double.lt c.private_fx (initBest pt0).best_fx = true := by
    rw [hc]
    simp only [initBest, Double.lt, decide_eq_true_eq]
    exact hlt
  refine ⟨rfl, rfl, hlt, hd, ?_, ?_⟩ <;> rw [keepBest_of_lt hd]

/-- C10 at a concrete input: the point `(1, 1, 1, 1)` with the program's `n = 4`. -/
theorem f_below_sentinel_witness :
    (initBest (fun _ => .fin 0)).best_fx = .fin 10000000000 ∧
    (initBest (fun _ => .fin 0)).best_trial = -1 ∧
    (f exactArith (fun _ => 1) 4 0).1 < 10000000000 ∧
    Double.lt (sampleResult 7 (.fin (f exactArith (fun _ => 1) 4 0).1)).private_fx
      (initBest (fun _ => .fin 0)).best_fx = true ∧
    (keepBest 4 cutWrites (initBest (fun _ => .fin 0))
      (sampleResult 7 (.fin (f exactArith (fun _ => 1) 4 0).1))).best_trial
        = (sampleResult 7 (.fin (f exactArith (fun _ => 1) 4 0).1)).trial ∧
    (keepBest 4 cutWrites (initBest (fun _ => .fin 0))
      (sampleResult 7 (.fin (f exactArith (fun _ => 1) 4 0).1))).best_fx
        = (sampleResult 7 (.fin (f exactArith (fun _ => 1) 4 0).1)).private_fx :=
  f_below_sentinel exactArith isRounding_exactArith (fun _ => 1) 4 (by decide) (by decide)
    (fun _ _ => by norm_num) 0 4 cutWrites (fun _ => .fin 0)
    (sampleResult 7 (.fin (f exactArith (fun _ => 1) 4 0).1)) rfl

/-! ## Properties of the evaluation counter -/

/-- C6 as stated fails: with a stub `mds` that returns the fixed count `nf = 5` and never calls
`f`, the 64 trials leave `funevals = 0` while the returned counts sum to 320. -/
theorem funevals_sum_counterexample :
    (runTasks exactArith stubMds zeroMem 4 (trials 64) (initShared zeroMem drand48Start)).funevals
      = 0 ∧
    ((trials 64).map (returnedNf exactArith stubMds zeroMem 4 drand48Start)).sum = 320 ∧
    ((runTasks exactArith stubMds zeroMem 4 (trials 64)
        (initShared zeroMem drand48Start)).funevals : Int)
      ≠ ((trials 64).map (returnedNf exactArith stubMds zeroMem 4 drand48Start)).sum := by
  have h0 : (runTasks exactArith stubMds zeroMem 4 (trials 64)
      (initShared zeroMem drand48Start)).funevals = 0 := by
    rw [runTasks_funevals exactArith stubMds zeroMem 4 drand48Start (trials 64) _
      (by simp [initShared])]
    rw [sum_map_const _ 0 (objectiveCalls_stub zeroMem 4 drand48Start)]
    simp [initShared]
  have h1 : ((trials 64).map (returnedNf exactArith stubMds zeroMem 4 drand48Start)).sum
      = 320 := by
    rw [sum_map_const _ 5 (returnedNf_stub zeroMem 4 drand48Start), trials_length]
    norm_num
  refine ⟨h0, h1, ?_⟩
  rw [h0, h1]
  decide

/-- C6, amended: for every `mds`, after the `ntrials` tasks have run to completion one after
another in any order, `funevals` equals, modulo `2 ^ 64`, the total number of calls of the
objective `f` made during the trials; it equals (modulo `2 ^ 64`) the sum of the returned
evaluation counts `nf` when every invocation returns as `nf` the number of calls of `f` it
made.  (`returnedNf` is the `nf` of the task's result whatever shared state the task found.) -/
theorem funevals_counts_calls (rnd : ℚ → ℚ) (mds : MdsArgs → MdsRun) (u : Uninit)
    (nvars ntrials : Int) (g0 : Drand48) (order : List Int)
    (hperm : order.Perm (trials ntrials)) :
    (runTasks rnd mds u nvars order (initShared u g0)).funevals
      = ((trials ntrials).map (objectiveCalls rnd mds u nvars g0)).sum % 2 ^ 64 ∧
    ((∀ t ∈ trials ntrials,
        returnedNf rnd mds u nvars g0 t = (objectiveCalls rnd mds u nvars g0 t : Int)) →
      ((runTasks rnd mds u nvars order (initShared u g0)).funevals : Int)
        = ((trials ntrials).map (returnedNf rnd mds u nvars g0)).sum % 2 ^ 64) ∧
    (∀ (sh : Shared) (t : Int),
      (taskResult rnd mds u nvars sh t).private_nf = returnedNf rnd mds u nvars g0 t) := by
  have h := runTasks_funevals rnd mds u nvars g0 order (initShared u g0)
    (by simp [initShared])
  have hsum : (order.map (objectiveCalls rnd mds u nvars g0)).sum
      = ((trials ntrials).map (objectiveCalls rnd mds u nvars g0)).sum :=
    (hperm.map _).sum_eq
  have h0 : (initShared u g0).funevals = 0 := rfl
  rw [h0, Nat.zero_add, hsum] at h
  refine ⟨h, fun hnf => ?_, fun sh t => taskResult_nf rnd mds u nvars g0 sh t⟩
  rw [h]
  have hmap : (trials ntrials).map (returnedNf rnd mds u nvars g0)
      = (trials ntrials).map (fun t => (objectiveCalls rnd mds u nvars g0 t : Int)) :=
    List.map_congr_left hnf
  rw [hmap, ← sum_map_cast]
  push_cast
  rfl

/-- C6 at a concrete input: three trials finishing in the order 2, 0, 1 with an `mds` that
calls `f` once per trial. -/
theorem funevals_counts_calls_witness :
    (runTasks exactArith probeMds zeroMem 4 [2, 0, 1] (initShared zeroMem drand48Start)).funevals
      = ((trials 3).map (objectiveCalls exactArith probeMds zeroMem 4 drand48Start)).sum
          % 2 ^ 64 ∧
    ((∀ t ∈ trials 3,
        returnedNf exactArith probeMds zeroMem 4 drand48Start t
          = (objectiveCalls exactArith probeMds zeroMem 4 drand48Start t : Int)) →
      ((runTasks exactArith probeMds zeroMem 4 [2, 0, 1]
          (initShared zeroMem drand48Start)).funevals : Int)
        = ((trials 3).map (returnedNf exactArith probeMds zeroMem 4 drand48Start)).sum
            % 2 ^ 64) ∧
    (∀ (sh : Shared) (t : Int),
      (taskResult exactArith probeMds zeroMem 4 sh t).private_nf
        = returnedNf exactArith probeMds zeroMem 4 drand48Start t) :=
  funevals_counts_calls exactArith probeMds zeroMem 4 3 drand48Start [2, 0, 1] (by decide)

/-! ## Concurrent tasks -/

/-- C9 fails on the code: two tasks each call `f` once; run one after the other they leave
`funevals = 2`, but when both read `funevals` before either writes it back, both calls are
finished and `funevals = 1`.  The same holds for any number `N + 2` of tasks: called one by
one they leave `N + 2`, and when all read before any writes they leave `1`. -/
theorem funevals_lost_update :
    incAllDone (incRun [0, 0, 1, 1] (incInit 2)) = true ∧
    (incRun [0, 0, 1, 1] (incInit 2)).funevals = 2 ∧
    incAllDone (incRun [0, 1, 0, 1] (incInit 2)) = true ∧
    (incRun [0, 1, 0, 1] (incInit 2)).funevals = 1 ∧
    ∀ N : Nat,
      (N + 2 < 2 ^ 64 → (incRun (oneByOne (N + 2)) (incInit (N + 2))).funevals = N + 2) ∧
      incAllDone (incRun (readThenWrite (N + 2)) (incInit (N + 2))) = true ∧
      (incRun (readThenWrite (N + 2)) (incInit (N + 2))).funevals = 1 := by
  refine ⟨by decide, by decide, by decide, by decide, fun N => ⟨fun hN => ?_, ?_⟩⟩
  · rw [serial_counts (N + 2) hN]
  · exact lost_updates_any (N + 1)

/-- C8 fails on the code: with the program's 64 trials and 4 variables, the schedule that runs
the tasks one after another yields the points each task generates in isolation, while the
schedule in which task 1 reseeds the shared generator between task 0's `srand48(0)` and its
draws completes as well and yields a different set of points: the point of trial 0 is lost.
And in the schedule in which task 1 advances the shared loop index between task 0's first
draw and its `i++`, task 0 leaves its loop without having written `private_startpt[1]`,
whatever the tasks do afterwards. -/
theorem startPoints_depend_on_schedule :
    genAllDone (genRun exactArith (lower zeroMem.lower0) (upper zeroMem.upper0) 4
      (seqSchedule 64 4) (genInit 64 drand48Start 250)) = true ∧
    genAllDone (genRun exactArith (lower zeroMem.lower0) (upper zeroMem.upper0) 4
      (racySchedule 64 4) (genInit 64 drand48Start 250)) = true ∧
    programPoints (seqSchedule 64 4) = isolatedPoints ∧
    (∃ p ∈ programPoints (seqSchedule 64 4), p ∉ programPoints (racySchedule 64 4)) ∧
    ∀ rest : List Nat, ∃ tk : GenTask,
      (genRun exactArith (lower zeroMem.lower0) (upper zeroMem.upper0) 4 (skipSchedule ++ rest)
        (genInit 64 drand48Start 250)).tasks.get? 0 = some tk ∧
      tk.pc = .done ∧ tk.private_startpt 1 = none := by
  have hseq := seq_points exactArith (lower zeroMem.lower0) (upper zeroMem.upper0) 4 64
    drand48Start 250 zeroMem.startpt0
  simp only [Nat.cast_ofNat] at hseq
  have hpts : programPoints (seqSchedule 64 4) = isolatedPoints := hseq.2
  refine ⟨hseq.1, ?_, hpts, ?_, skip_any⟩
  · simp [genAllDone, racy_tasks, racyTasks, finish]
  · refine ⟨(List.range 4).map (fun i => some
        ((genStart exactArith (lower zeroMem.lower0) (upper zeroMem.upper0) 4 0 drand48Start
          (zeroMem.startpt0 0)).1 i)), ?_, ?_⟩
    · rw [hpts]
      have h0 : (0 : Int) ∈ trials 64 :=
        List.mem_map.mpr ⟨0, List.mem_range.mpr (by decide), rfl⟩
      unfold isolatedPoints
      exact List.mem_map_of_mem _ h0
    · unfold programPoints startPoints
      rw [racy_tasks]
      exact racy_misses_trial0

end Multistart
